import Mathlib

/-!
# OPTIMET: coaxial translation apply, baked functor, rotation coefficients

A shallow embedding of

* `CoAxialTranslationCoefficients.h`: the vector/matrix apply of
  `CachedCoAxialRecurrence` and of its baked `Functor`;
* `RotationCoefficients.cpp`: `a`, `b`, `factors`, `operator()` and `recursion`.

Modelling conventions.

* `t_int` (`int`) values are integers of `ℤ`.  Signed overflow is undefined
  behaviour in C++, so the apply operators describe the runs in which it does not
  occur; every `t_int` the apply loops compute is bounded by the row count.  The
  shape assertions of the engine are also given with 32-bit arithmetic
  (`shapeCheckInt32`, an overflowing product wraps around); below `2^31` rows the two
  agree.
* `t_uint` (`size_t`) expressions that are converted to a floating point number
  are reduced modulo `2^64` (`u64`).  A degree is a natural number; the degree
  `n + 1` handed to a recursive call is not reduced, so the embedding describes
  the engines whose degrees stay below `2^64`.
* The cache of the rotation engine is a finite map and is represented by its
  lookup function.  The three recursive calls in `recursion`, which C++ leaves
  unordered, are made from left to right.
* `assert` and the assertions of `Eigen` in `row(i)` and in `resize` are checks: a
  failed check ends the run with a `Fault`.
* In `apply coeff out input` the containers `out` and `input` are two objects; the
  call that passes one object for both is `applyAliased`.
* Complex and real scalars are kept abstract: the apply operators only need
  `0`, `+` and `*`; the rotation engine works over two fields together with the
  elementary functions it calls (`Numerics`).
-/

namespace Optimet

/-- Ways in which a run can stop at a failed assertion. -/
inductive Fault where
  /-- The size assertion on the input failed: `assert((nmax + 1) * (nmax + 1) == input.rows())`
  in the engine, `assert((N + 1) * (N + 1) == input.size())` in the functor. -/
  | shape
  /-- Failure of `assert(nmax >= 0)`. -/
  | negativeDegree
  /-- Failure of `assert(i == index(n, m))`. -/
  | indexMismatch
  /-- Failure of `assert(i_coeff != coefficients.end())`. -/
  | coefficientsExhausted
  /-- A `row(i)` access outside `0 ≤ i < rows()`. -/
  | rowRange
  /-- Failure of `assert(n >= 1)` in `RotationCoefficients::recursion`. -/
  | degreeZero
  /-- Failure of the assertion of `resize` on a container that cannot be resized: the
  requested shape is not the shape the container has. -/
  | resize
  deriving DecidableEq

/-- A dense container (`Eigen` vector or matrix): its shape and its entries.
Only the entries `entry i j` with `i < rows` and `j < cols` belong to the container. -/
structure Mat (K : Type) where
  /-- Number of rows, `rows()`. -/
  rows : Nat
  /-- Number of columns, `cols()`. -/
  cols : Nat
  /-- Entry in row `i` and column `j`. -/
  entry : Nat → Nat → K

namespace Mat

variable {K : Type}

/-- Number of entries, `size()`. -/
def size (A : Mat K) : Nat := A.rows * A.cols

/-- The call `A.resize(r, c)` on a reference of type `Eigen::MatrixBase<T>&`, which is the
type of `out` in both apply operators.  Through such a reference the call is
`DenseBase::resize`: it changes nothing, and asserts that `A` has `r` rows and `c` columns
already. -/
def resize (A : Mat K) (r c : Nat) : Except Fault (Mat K) :=
  if A.rows = r ∧ A.cols = c then .ok A else .error .resize

/-- The call `A.fill(v)`: every entry becomes `v`. -/
def fill (A : Mat K) (v : K) : Mat K := ⟨A.rows, A.cols, fun _ _ => v⟩

/-- The zero container with `r` rows and `c` columns. -/
def zeros [Zero K] (r c : Nat) : Mat K := ⟨r, c, fun _ _ => 0⟩

/-- The statement `out.row(t) += c * input.row(s)`. -/
def rowAxpy [Add K] [Mul K] (out : Mat K) (t : Int) (c : K) (input : Mat K) (s : Int) :
    Except Fault (Mat K) :=
  if 0 ≤ t ∧ t < out.rows ∧ 0 ≤ s ∧ s < input.rows then
    .ok { out with
      entry := fun i j =>
        if i = t.toNat then out.entry i j + c * input.entry s.toNat j else out.entry i j }
  else
    .error .rowRange

end Mat

/-- The values `lo, lo + 1, ..., hi` a loop variable takes in
`for(x = lo; x <= hi; ++x)`. -/
def intRange (lo hi : Int) : List Int :=
  (List.range (hi + 1 - lo).toNat).map (fun (k : Nat) => lo + (k : Int))

/-- The loop `for(x = lo; x <= hi; ++x) body`, the body acting on a state and
possibly failing. -/
def forLoop {σ : Type} (lo hi : Int) (body : Int → σ → Except Fault σ) (s : σ) :
    Except Fault σ :=
  (intRange lo hi).foldlM (fun st x => body x st) s

/-- The loop nest shared by both apply operators:
```
for(auto n = 0, i = 0; n <= N; ++n)
  for(auto m = -n; m <= n; ++m, ++i)
    for(auto l = std::abs(m); l <= N; ++l)
      body
```
The body sees the counter `i` and the loop variables `n`, `m`, `l`. -/
def harmonicsLoop {σ : Type} (N : Int) (body : Int → Int → Int → Int → σ → Except Fault σ)
    (s : σ) : Except Fault σ :=
  (forLoop 0 N
      (fun n st =>
        forLoop (-n) n
          (fun m st =>
            (forLoop |m| N (fun l s => body st.1 n m l s) st.2).bind
              (fun s => .ok (st.1 + 1, s)))
          st)
      ((0 : Int), s)).bind
    (fun st => .ok st.2)

/-- The value of a `t_int` (`int`) expression whose exact value is `z`: `z` reduced to the
32-bit two's complement range.  It is used where the source can leave that range. -/
def i32 (z : Int) : Int := (z + 2 ^ 31) % 2 ^ 32 - 2 ^ 31

namespace CachedCoAxialRecurrence

variable {K : Type}

/-- The lambda `index` of the engine's apply:
`std::abs(m) > n ? 0 : n * n + n + m`. -/
def index (n m : Int) : Int := if |m| > n then 0 else n * n + n + m

/-- The degree `std::lround(std::sqrt(input.rows()) - 1.0)`: the integer nearest to
`√rows - 1`.  `Nat.sqrt` is the floor of the square root, and `√rows` is never half
way between two integers. -/
def nmaxOf (rows : Nat) : Int :=
  let s := Nat.sqrt rows
  ((if s < rows - s * s then s + 1 else s : Nat) : Int) - 1

/-- The two shape assertions of the engine's apply, in exact integer arithmetic; yields
`nmax`.  Below `2^31` rows this is what the 32-bit arithmetic of the source computes
(`shapeCheckInt32`). -/
def shapeCheck (rows : Nat) : Except Fault Int :=
  let nmax := nmaxOf rows
  if (nmax + 1) * (nmax + 1) ≠ (rows : Int) then .error .shape
  else if ¬ (nmax ≥ 0) then .error .negativeDegree
  else .ok nmax

/-- The two shape assertions of the engine's apply with the `t_int` arithmetic of the
source: `nmax` and the product `(nmax + 1) * (nmax + 1)` are 32-bit integers, and the
product is compared with the 64-bit row count.  Yields `nmax`.  From `2^31` rows on the
first assertion fails whatever 32-bit value `nmax` and the product take. -/
def shapeCheckInt32 (rows : Nat) : Except Fault Int :=
  let nmax := i32 (nmaxOf rows)
  if i32 (i32 (nmax + 1) * i32 (nmax + 1)) ≠ (rows : Int) then .error .shape
  else if ¬ (nmax ≥ 0) then .error .negativeDegree
  else .ok nmax

/-- Body of the engine's innermost loop. -/
def applyBody [Add K] [Mul K] (coeff : Int → Int → Int → K) (input : Mat K)
    (i n m l : Int) (out : Mat K) : Except Fault (Mat K) :=
  if i ≠ index n m then .error .indexMismatch
  else out.rowAxpy (index l m) (coeff n m l) input (index n m)

/-- The in-place apply `CachedCoAxialRecurrence::operator()(out, input)`.
`coeff n m l` is the value of the scalar `operator()(n, m, l)`, whose recurrences the
header declares and does not define. -/
def apply [Zero K] [Add K] [Mul K] (coeff : Int → Int → Int → K) (out input : Mat K) :
    Except Fault (Mat K) :=
  (out.resize input.rows input.cols).bind
    (fun out =>
      (shapeCheck input.rows).bind
        (fun nmax => harmonicsLoop nmax (applyBody coeff input) (out.fill 0)))

/-- The baked operator: the degree `N` and the stored coefficients. -/
structure Functor (K : Type) where
  /-- The degree fixed when the functor was made. -/
  N : Int
  /-- The coefficients, in the order in which apply reads them. -/
  coefficients : List K

namespace Functor

/-- Body of the functor's innermost loop, followed by `++i_coeff`.  The iterator
`i_coeff` is the list of the coefficients not read yet. -/
def applyBody [Add K] [Mul K] (input : Mat K) (i _n m l : Int) (st : List K × Mat K) :
    Except Fault (List K × Mat K) :=
  match st.1 with
  | [] => .error .coefficientsExhausted
  | c :: rest => (st.2.rowAxpy (l * (l + 1) + m) c input i).bind (fun out => .ok (rest, out))

/-- The in-place apply `Functor::operator()(out, input)`. -/
def apply [Zero K] [Add K] [Mul K] (F : Functor K) (out input : Mat K) :
    Except Fault (Mat K) :=
  if (F.N + 1) * (F.N + 1) ≠ (input.size : Int) then .error .shape
  else
    (out.resize input.rows input.cols).bind
      (fun out =>
        (harmonicsLoop F.N (applyBody input) (F.coefficients, out.fill 0)).bind
          (fun st => .ok st.2))

end Functor

end CachedCoAxialRecurrence

/-- The iterations of the loop nest of degree `N`, in order: the value of the
counter `i` and of the loop variables `n`, `m`, `l`. -/
def visits (N : Int) : List (Int × Int × Int × Int) :=
  (intRange 0 N).flatMap (fun n =>
    (intRange (-n) n).flatMap (fun m =>
      (intRange |m| N).map (fun l => (n * n + n + m, n, m, l))))

/-- The matrix after a successful `out.row(t) += c * input.row(s)`. -/
def Mat.rowAdd {K : Type} [Add K] [Mul K] (out : Mat K) (t : Nat) (c : K) (input : Mat K)
    (s : Nat) : Mat K :=
  { out with
    entry := fun i j => if i = t then out.entry i j + c * input.entry s j else out.entry i j }

/-- The step of the engine on one visit, when no assertion fails. -/
def CachedCoAxialRecurrence.applyStep {K : Type} [Add K] [Mul K]
    (coeff : Int → Int → Int → K) (input : Mat K) (out : Mat K)
    (v : Int × Int × Int × Int) : Mat K :=
  out.rowAdd (v.2.2.2 * v.2.2.2 + v.2.2.2 + v.2.2.1).toNat (coeff v.2.1 v.2.2.1 v.2.2.2) input
    v.1.toNat

/-- The output of the engine of degree `N`, as a pure fold over the visits. -/
def CachedCoAxialRecurrence.applyResult {K : Type} [Zero K] [Add K] [Mul K]
    (coeff : Int → Int → Int → K) (N : Int) (input : Mat K) : Mat K :=
  (visits N).foldl (applyStep coeff input) (Mat.zeros input.rows input.cols)

/-- The elementary functions the rotation engine calls, on the real type `R` and the
complex type `C`. -/
structure Numerics (R C : Type) where
  /-- The real square root `std::sqrt`. -/
  sqrt : R → R
  /-- The real cosine `std::cos`. -/
  cos : R → R
  /-- The real sine `std::sin`. -/
  sin : R → R
  /-- The unit complex number `std::exp(Complex(0, x))`. -/
  expI : R → C
  /-- The conversion of a real operand in a product or quotient with a complex one. -/
  ofReal : R → C
  /-- The complex conjugate `std::conj`. -/
  conj : C → C

/-- The value of a `t_uint` expression: the integer it denotes, modulo `2^64`. -/
def u64 (z : Int) : Nat := (z % 2 ^ 64).toNat

/-- The rotation engine: its numerics, its three Euler angles, and the member function
`initial`, which `RotationCoefficients.cpp` calls and does not define; it is taken as
given. -/
structure RotationCoefficients (R C : Type) where
  /-- The elementary functions. -/
  num : Numerics R C
  /-- The polar angle. -/
  theta : R
  /-- The first azimuthal angle. -/
  phi : R
  /-- The second azimuthal angle. -/
  chi : R
  /-- The value `initial(n, mu)` of the coefficient of order `m = 0`. -/
  initial : Nat → Int → C

namespace RotationCoefficients

variable {R C : Type} [Field R] [Field C]

/-- The cache `std::map<std::tuple<t_uint, t_int, t_int>, Complex>`: a finite map,
given by its lookup function. -/
abbrev Cache (C : Type) : Type := Nat × Int × Int → Option C

/-- The cache of a new engine. -/
def Cache.empty : Cache C := fun _ => none

/-- The assignment `cache[key] = value`. -/
def Cache.insert (cache : Cache C) (key : Nat × Int × Int) (value : C) : Cache C :=
  fun k => if k = key then some value else cache k

/-- The static function `RotationCoefficients::a`. -/
def a (P : Numerics R C) (n : Nat) (m : Int) : R :=
  let absm : Nat := m.natAbs
  if n < absm then 0
  else
    P.sqrt
      (((u64 (((n : Int) + 1 + (absm : Int)) * ((n : Int) + 1 - (absm : Int))) : Nat) : R) /
        ((u64 ((2 * (n : Int) + 1) * (2 * (n : Int) + 3)) : Nat) : R))

/-- The static function `RotationCoefficients::b`. -/
def b (P : Numerics R C) (n : Nat) (m : Int) : R :=
  if m.natAbs > n then 0
  else
    (if m ≥ 0 then 1 else -1) *
      P.sqrt
        (((u64 (((n : Int) - m - 1) * ((n : Int) - m)) : Nat) : R) /
          ((u64 ((2 * (n : Int) - 1) * (2 * (n : Int) + 1)) : Nat) : R))

/-- The member function `RotationCoefficients::factors`: the three weights of the
recurrence. -/
def factors (E : RotationCoefficients R C) (n : Nat) (m mu : Int) : C × C × C :=
  let factor := E.num.expI E.chi / E.num.ofReal (b E.num (n + 1) (m - 1))
  let c0 :=
    factor * E.num.ofReal (1 / 2) * E.num.ofReal (b E.num (n + 1) (-mu - 1)) * E.num.expI E.phi *
      E.num.ofReal (1 - E.num.cos E.theta)
  let c1 :=
    -factor * E.num.ofReal (1 / 2) * E.num.ofReal (b E.num (n + 1) (mu - 1)) *
        E.num.expI (-E.phi) *
      E.num.ofReal (1 + E.num.cos E.theta)
  let c2 := -factor * E.num.ofReal (a E.num n mu) * E.num.ofReal (E.num.sin E.theta)
  (c0, c1, c2)

mutual

/-- The member function `RotationCoefficients::operator()(n, m, mu)`: the value returned
and the cache left behind. -/
def coefficient (E : RotationCoefficients R C) (n : Nat) (m mu : Int) (cache : Cache C) :
    Except Fault (C × Cache C) :=
  if m.natAbs > n ∨ mu.natAbs > n then .ok (0, cache)
  else if m < 0 then
    (coefficient E n (-m) (-mu) cache).bind (fun r => .ok (E.num.conj r.1, r.2))
  else
    match cache (n, m, mu) with
    | some prior => .ok (prior, cache)
    | none =>
      (if m = 0 then .ok (E.initial n mu, cache) else recursion E n m mu cache).bind
        (fun r => .ok (r.1, Cache.insert r.2 (n, m, mu) r.1))
termination_by 4 * m.natAbs + (if m < 0 then 2 else 0) + 1
decreasing_by
  all_goals simp_wf
  all_goals split_ifs <;> omega

/-- The member function `RotationCoefficients::recursion`: the weights are computed
first, then the three calls of `operator()` are made from left to right. -/
def recursion (E : RotationCoefficients R C) (n : Nat) (m mu : Int) (cache : Cache C) :
    Except Fault (C × Cache C) :=
  if ¬ (n ≥ 1) then .error .degreeZero
  else
    let f := factors E n m mu
    (coefficient E (n + 1) (m - 1) (mu + 1) cache).bind (fun r0 =>
      (coefficient E (n + 1) (m - 1) (mu - 1) r0.2).bind (fun r1 =>
        (coefficient E (n + 1) (m - 1) mu r1.2).bind (fun r2 =>
          .ok (f.1 * r0.1 + f.2.1 * r1.1 + f.2.2 * r2.1, r2.2))))
termination_by 4 * (m - 1).natAbs + (if m - 1 < 0 then 2 else 0) + 2
decreasing_by
  all_goals simp_wf

end

/-- The recurrence without the cache, for an order `m ≥ 0`: what `operator()(n, m, mu)`
computes when nothing is stored. -/
def valueNonneg (E : RotationCoefficients R C) : Nat → Nat → Int → C
  | 0, n, mu => if mu.natAbs > n then 0 else E.initial n mu
  | m + 1, n, mu =>
    if m + 1 > n ∨ mu.natAbs > n then 0
    else
      (factors E n ((m : Int) + 1) mu).1 * valueNonneg E m (n + 1) (mu + 1) +
        (factors E n ((m : Int) + 1) mu).2.1 * valueNonneg E m (n + 1) (mu - 1) +
        (factors E n ((m : Int) + 1) mu).2.2 * valueNonneg E m (n + 1) mu

/-- The recurrence without the cache, for any order. -/
def value (E : RotationCoefficients R C) (n : Nat) (m mu : Int) : C :=
  if m.natAbs > n ∨ mu.natAbs > n then 0
  else if m < 0 then E.num.conj (valueNonneg E (-m).toNat n (-mu))
  else valueNonneg E m.toNat n mu

/-- Soundness of a cache: every stored entry has a key with `0 ≤ m ≤ n`, `|mu| ≤ n` and
holds the value of the recurrence at its key. -/
def CacheOK (E : RotationCoefficients R C) (cache : Cache C) : Prop :=
  ∀ n m mu v, cache (n, m, mu) = some v →
    0 ≤ m ∧ m.natAbs ≤ n ∧ mu.natAbs ≤ n ∧ v = valueNonneg E m.toNat n mu

/-- Every entry of the first cache is an entry of the second. -/
def Cache.Extends (c c' : Cache C) : Prop := ∀ k v, c k = some v → c' k = some v

/-- The caches an engine can hold: the empty one, and the one left by any call of
`operator()` on a cache it can hold. -/
inductive Reachable (E : RotationCoefficients R C) : Cache C → Prop
  | empty : Reachable E Cache.empty
  | call (c c' : Cache C) (n : Nat) (m mu : Int) (v : C) :
      Reachable E c → coefficient E n m mu c = .ok (v, c') → Reachable E c'

end RotationCoefficients

/-- The laws of exact real and complex arithmetic that the identity case relies on. -/
structure Numerics.Exact {R C : Type} [LinearOrderedField R] [Field C] (P : Numerics R C) :
    Prop where
  /-- The square root of a positive number is positive. -/
  sqrt_pos : ∀ x : R, 0 < x → 0 < P.sqrt x
  /-- The value `cos 0 = 1`. -/
  cos_zero : P.cos 0 = 1
  /-- The value `sin 0 = 0`. -/
  sin_zero : P.sin 0 = 0
  /-- The value `exp(0 i) = 1`. -/
  expI_zero : P.expI 0 = 1
  /-- The real zero is the complex zero. -/
  ofReal_zero : P.ofReal 0 = 0
  /-- The real one is the complex one. -/
  ofReal_one : P.ofReal 1 = 1
  /-- The conversion is multiplicative. -/
  ofReal_mul : ∀ x y : R, P.ofReal (x * y) = P.ofReal x * P.ofReal y
  /-- The conjugate of zero. -/
  conj_zero : P.conj 0 = 0
  /-- The conjugate of one. -/
  conj_one : P.conj 1 = 1
  /-- Conjugation commutes with negation. -/
  conj_neg : ∀ z : C, P.conj (-z) = -P.conj z

/-- The run of `operator()(n, m, mu)` under two budgets.  It gives up, with `none`, as soon
as more than `depth` activations of `operator()` are nested in one another, the outermost
one included, or a coefficient of a degree above `degree` is requested; otherwise it is the
run of `coefficient`, with `recursion` written out in place. -/
def RotationCoefficients.coefficientWithin {R C : Type} [Field R] [Field C]
    (E : RotationCoefficients R C) (degree : Nat) :
    Nat → Nat → Int → Int → RotationCoefficients.Cache C →
      Option (Except Fault (C × RotationCoefficients.Cache C))
  | 0, _, _, _, _ => none
  | depth + 1, n, m, mu, cache =>
    if degree < n then none
    else if m.natAbs > n ∨ mu.natAbs > n then some (.ok (0, cache))
    else if m < 0 then
      (coefficientWithin E degree depth n (-m) (-mu) cache).map
        (fun r => r.bind (fun r => .ok (E.num.conj r.1, r.2)))
    else
      match cache (n, m, mu) with
      | some prior => some (.ok (prior, cache))
      | none =>
        Option.map
          (fun (r : Except Fault (C × RotationCoefficients.Cache C)) =>
            r.bind (fun r => .ok (r.1, Cache.insert r.2 (n, m, mu) r.1)))
          (if m = 0 then some (Except.ok (E.initial n mu, cache))
            else if ¬ (n ≥ 1) then some (Except.error Fault.degreeZero)
            else
              match coefficientWithin E degree depth (n + 1) (m - 1) (mu + 1) cache with
              | none => none
              | some (Except.error e) => some (Except.error e)
              | some (Except.ok r0) =>
                match coefficientWithin E degree depth (n + 1) (m - 1) (mu - 1) r0.2 with
                | none => none
                | some (Except.error e) => some (Except.error e)
                | some (Except.ok r1) =>
                  match coefficientWithin E degree depth (n + 1) (m - 1) mu r1.2 with
                  | none => none
                  | some (Except.error e) => some (Except.error e)
                  | some (Except.ok r2) =>
                    some (Except.ok
                      ((factors E n m mu).1 * r0.1 + (factors E n m mu).2.1 * r1.1
                        + (factors E n m mu).2.2 * r2.1, r2.2)))

/-- The laws of the exact real square root that the values of `a` and `b` rely on. -/
structure Numerics.SqrtExact {R C : Type} [LinearOrderedField R] (P : Numerics R C) :
    Prop where
  /-- A square root is not negative. -/
  sqrt_nonneg : ∀ x : R, 0 ≤ P.sqrt x
  /-- The square root of a non-negative number squares to that number. -/
  mul_self_sqrt : ∀ x : R, 0 ≤ x → P.sqrt x * P.sqrt x = x

/-- The step of the functor on one visit paired with the coefficient read there, when no
assertion fails. -/
def CachedCoAxialRecurrence.Functor.applyStep {K : Type} [Add K] [Mul K] (input : Mat K)
    (out : Mat K) (vc : (Int × Int × Int × Int) × K) : Mat K :=
  out.rowAdd (vc.1.2.2.2 * (vc.1.2.2.2 + 1) + vc.1.2.2.1).toNat vc.2 input vc.1.1.toNat

/-! ## Loops and ranges -/

theorem Except.bind_ok_eq {ε α β : Type} (a : α) (f : α → Except ε β) :
    (Except.ok a : Except ε α).bind f = f a := rfl

theorem Except.bind_error_eq {ε α β : Type} (e : ε) (f : α → Except ε β) :
    (Except.error e : Except ε α).bind f = Except.error e := rfl

theorem Except.bind_bind_eq {ε α β γ : Type} (x : Except ε α) (f : α → Except ε β)
    (g : β → Except ε γ) : (x.bind f).bind g = x.bind (fun a => (f a).bind g) := by
  cases x <;> rfl

theorem Except.bind_ok_self {ε α : Type} (x : Except ε α) :
    x.bind (fun a => Except.ok a) = x := by
  cases x <;> rfl

theorem Except.monad_bind_eq {ε α β : Type} (x : Except ε α) (f : α → Except ε β) :
    x >>= f = x.bind f := rfl

/-- foldlM over an appended list. -/
theorem foldlM_append_bind {ε α σ : Type} (f : σ → α → Except ε σ) (xs ys : List α) (s : σ) :
    (xs ++ ys).foldlM f s = (xs.foldlM f s).bind (fun s => ys.foldlM f s) := by
  rw [List.foldlM_append]; rfl

/-- A loop that increments a counter after each inner loop visits the flattened
list of pairs, each tagged with the value of the counter. -/
theorem counted_foldlM {α β σ : Type} (inner : α → List β)
    (body : Int → α → β → σ → Except Fault σ) (f : Nat → α) (k : Nat) (i0 : Int) (s : σ) :
    ((List.range k).map f).foldlM
        (fun (st : Int × σ) x =>
          ((inner x).foldlM (fun s y => body st.1 x y s) st.2).bind
            (fun s => .ok (st.1 + 1, s)))
        (i0, s)
      = (((List.range k).flatMap
            (fun j => (inner (f j)).map (fun y => (i0 + (j : Int), f j, y)))).foldlM
          (fun s v => body v.1 v.2.1 v.2.2 s) s).bind
        (fun s => .ok (i0 + (k : Int), s)) := by
  induction k with
  | zero => simp [Except.bind_ok_eq, pure, Except.pure]
  | succ k ih =>
    rw [List.range_succ, List.map_append, foldlM_append_bind, ih, List.flatMap_append,
      foldlM_append_bind, Except.bind_bind_eq, Except.bind_bind_eq]
    congr 1
    funext s
    simp only [Except.bind_ok_eq, List.map_cons, List.map_nil, List.foldlM_cons, List.foldlM_nil,
      List.flatMap_cons, List.flatMap_nil, List.append_nil, List.foldlM_map]
    simp only [Except.monad_bind_eq, Except.bind_bind_eq, pure, Except.pure, Except.bind_ok_eq]
    congr 1
    funext s
    simp [add_assoc]

theorem flatMap_map_eq {α β γ : Type} (f : α → β) (g : β → List γ) (xs : List α) :
    (xs.map f).flatMap g = xs.flatMap (fun x => g (f x)) := by
  induction xs with
  | nil => rfl
  | cons x xs ih => simp [List.flatMap_cons, ih]

/-- The loop over `m` at degree `n`, started with the counter at `n * n`. -/
theorem orderLoop_eq {σ : Type} (N : Int) (body : Int → Int → Int → Int → σ → Except Fault σ)
    (n : Nat) (s : σ) :
    forLoop (-(n : Int)) n
        (fun m (st : Int × σ) =>
          (forLoop |m| N (fun l s => body st.1 n m l s) st.2).bind
            (fun s => .ok (st.1 + 1, s)))
        (((n : Int) * n), s)
      = (((intRange (-(n : Int)) n).flatMap (fun m =>
            (intRange |m| N).map (fun l => ((n : Int) * n + n + m, (n : Int), m, l)))).foldlM
          (fun s v => body v.1 v.2.1 v.2.2.1 v.2.2.2 s) s).bind
        (fun s => .ok ((((n + 1 : Nat) : Int)) * ((n + 1 : Nat) : Int), s)) := by
  have h := counted_foldlM (fun m : Int => intRange |m| N) (fun i m l s => body i n m l s)
    (fun k : Nat => -(n : Int) + (k : Int)) ((n : Int) + 1 - (-(n : Int))).toNat ((n : Int) * n) s
  unfold forLoop
  unfold intRange at h ⊢
  rw [h]
  have hk : (((n : Int) + 1 - (-(n : Int))).toNat : Int) = 2 * n + 1 := by omega
  rw [hk, flatMap_map_eq]
  have e1 : ((n : Int) * n + (2 * n + 1)) = ((n + 1 : Nat) : Int) * ((n + 1 : Nat) : Int) := by
    push_cast; ring
  rw [e1]
  congr 1
  have e2 : ∀ j : Nat, (n : Int) * n + n + (-(n : Int) + j) = (n : Int) * n + j := by
    intro j; ring
  simp only [e2, List.foldlM_map, List.flatMap_map]
  have e3 : ∀ (k : Nat),
      ((List.range k).flatMap fun x =>
        List.map (fun l => ((n : Int) * n + (x : Int), (n : Int), -(n : Int) + (x : Int), l))
          (List.map (fun (k : Nat) => |-(n : Int) + (x : Int)| + (k : Int))
            (List.range (N + 1 - |-(n : Int) + (x : Int)|).toNat)))
      = ((List.range k).flatMap fun j =>
        List.map (fun y => ((n : Int) * n + (j : Int), -(n : Int) + (j : Int), y))
          (List.map (fun (k : Nat) => |-(n : Int) + (j : Int)| + (k : Int))
            (List.range (N + 1 - |-(n : Int) + (j : Int)|).toNat))).map
          (fun v => (v.1, (n : Int), v.2.1, v.2.2)) := by
    intro k
    simp only [List.map_flatMap, List.map_map]
    rfl
  rw [e3, List.foldlM_map]

/-- The loop nest visits `visits N` in order, and the body runs once per visit. -/
theorem harmonicsLoop_eq_foldlM {σ : Type} (N : Int)
    (body : Int → Int → Int → Int → σ → Except Fault σ) (s : σ) :
    harmonicsLoop N body s
      = (visits N).foldlM (fun s v => body v.1 v.2.1 v.2.2.1 v.2.2.2 s) s := by
  have key : ∀ K : Nat,
      ((List.range K).map (fun (k : Nat) => (0 : Int) + (k : Int))).foldlM
          (fun (st : Int × σ) n =>
            forLoop (-n) n
              (fun m (st : Int × σ) =>
                (forLoop |m| N (fun l s => body st.1 n m l s) st.2).bind
                  (fun s => .ok (st.1 + 1, s)))
              st)
          ((0 : Int), s)
        = ((((List.range K).map (fun (k : Nat) => (0 : Int) + (k : Int))).flatMap (fun n =>
              (intRange (-n) n).flatMap (fun m =>
                (intRange |m| N).map (fun l => (n * n + n + m, n, m, l))))).foldlM
            (fun s v => body v.1 v.2.1 v.2.2.1 v.2.2.2 s) s).bind
          (fun s => .ok ((K : Int) * (K : Int), s)) := by
    intro K
    induction K with
    | zero => simp [Except.bind_ok_eq, pure, Except.pure]
    | succ K ih =>
      rw [List.range_succ, List.map_append, foldlM_append_bind, ih, List.flatMap_append,
        foldlM_append_bind, Except.bind_bind_eq, Except.bind_bind_eq]
      congr 1
      funext s
      simp only [Except.bind_ok_eq, List.map_cons, List.map_nil, List.foldlM_cons,
        List.foldlM_nil, List.flatMap_cons, List.flatMap_nil, List.append_nil, zero_add]
      simp only [Except.monad_bind_eq, pure, Except.pure]
      rw [orderLoop_eq, Except.bind_bind_eq]
      rfl
  unfold harmonicsLoop
  rw [forLoop, intRange, key, Except.bind_bind_eq]
  simp only [Except.bind_ok_eq]
  unfold visits
  rw [intRange]
  exact Except.bind_ok_self _

theorem mem_intRange {lo hi x : Int} : x ∈ intRange lo hi ↔ lo ≤ x ∧ x ≤ hi := by
  unfold intRange
  simp only [List.mem_map, List.mem_range]
  constructor
  · rintro ⟨k, hk, rfl⟩
    omega
  · rintro ⟨h1, h2⟩
    refine ⟨(x - lo).toNat, ?_, ?_⟩ <;> omega

theorem nodup_intRange (lo hi : Int) : (intRange lo hi).Nodup := by
  unfold intRange
  refine List.Nodup.map ?_ (List.nodup_range _)
  intro a b h
  simpa using h

theorem intRange_eq_nil {lo hi : Int} (h : hi < lo) : intRange lo hi = [] := by
  unfold intRange
  have : (hi + 1 - lo).toNat = 0 := by omega
  rw [this]; rfl

/-- Splitting a range at `mid`. -/
theorem intRange_split {lo mid hi : Int} (h1 : lo ≤ mid) (h2 : mid ≤ hi + 1) :
    intRange lo hi = intRange lo (mid - 1) ++ intRange mid hi := by
  unfold intRange
  have e : (hi + 1 - lo).toNat = (mid - 1 + 1 - lo).toNat + (hi + 1 - mid).toNat := by omega
  rw [e, List.range_add, List.map_append, List.map_map]
  congr 1
  apply List.map_congr_left
  intro k _
  simp only [Function.comp]
  omega

theorem foldl_none {α β : Type} (f : β → α → β) (xs : List α) (acc : β)
    (h : ∀ x ∈ xs, ∀ acc, f acc x = acc) : xs.foldl f acc = acc := by
  induction xs generalizing acc with
  | nil => rfl
  | cons x xs ih =>
    rw [List.foldl_cons, h x (List.mem_cons_self _ _)]
    exact ih acc (fun y hy => h y (List.mem_cons_of_mem _ hy))

theorem foldl_single {α β : Type} (f : β → α → β) (xs : List α) (a : α) (acc : β)
    (hnd : xs.Nodup) (ha : a ∈ xs) (h : ∀ x ∈ xs, x ≠ a → ∀ acc, f acc x = acc) :
    xs.foldl f acc = f acc a := by
  induction xs generalizing acc with
  | nil => cases ha
  | cons x xs ih =>
    rw [List.foldl_cons]
    rw [List.nodup_cons] at hnd
    by_cases hx : x = a
    · subst hx
      exact foldl_none f xs _ (fun y hy =>
        h y (List.mem_cons_of_mem _ hy) (fun e => hnd.1 (e ▸ hy)))
    · rw [h x (List.mem_cons_self _ _) hx]
      have ha' : a ∈ xs := by
        rcases List.mem_cons.1 ha with e | e
        · exact absurd e.symm hx
        · exact e
      exact ih acc hnd.2 ha' (fun y hy => h y (List.mem_cons_of_mem _ hy))

theorem foldl_congr_mem {α β : Type} (f g : β → α → β) (xs : List α) (acc : β)
    (h : ∀ x ∈ xs, ∀ acc, f acc x = g acc x) : xs.foldl f acc = xs.foldl g acc := by
  induction xs generalizing acc with
  | nil => rfl
  | cons x xs ih =>
    rw [List.foldl_cons, List.foldl_cons, h x (List.mem_cons_self _ _)]
    exact ih _ (fun y hy => h y (List.mem_cons_of_mem _ hy))

theorem foldlM_congr_mem {ε α β : Type} (f g : β → α → Except ε β) (xs : List α) (acc : β)
    (h : ∀ x ∈ xs, ∀ acc, f acc x = g acc x) : xs.foldlM f acc = xs.foldlM g acc := by
  induction xs generalizing acc with
  | nil => rfl
  | cons x xs ih =>
    rw [List.foldlM_cons, List.foldlM_cons, h x (List.mem_cons_self _ _)]
    congr 1
    funext s
    exact ih _ (fun y hy => h y (List.mem_cons_of_mem _ hy))

/-- A monadic fold whose steps all succeed on the states satisfying an invariant is a pure fold. -/
theorem foldlM_eq_ok_foldl {ε α β : Type} (P : β → Prop) (f : β → α → Except ε β)
    (g : β → α → β) (xs : List α) (acc : β) (h0 : P acc)
    (h : ∀ x ∈ xs, ∀ s, P s → f s x = .ok (g s x) ∧ P (g s x)) :
    xs.foldlM f acc = .ok (xs.foldl g acc) ∧ P (xs.foldl g acc) := by
  induction xs generalizing acc with
  | nil => exact ⟨rfl, h0⟩
  | cons x xs ih =>
    obtain ⟨e, hp⟩ := h x (List.mem_cons_self _ _) acc h0
    rw [List.foldlM_cons, e, List.foldl_cons]
    exact ih _ hp (fun y hy => h y (List.mem_cons_of_mem _ hy))

theorem mem_visits {N : Int} {v : Int × Int × Int × Int} :
    v ∈ visits N ↔
      ∃ n m l, (0 ≤ n ∧ n ≤ N) ∧ (-n ≤ m ∧ m ≤ n) ∧ (|m| ≤ l ∧ l ≤ N) ∧
        v = (n * n + n + m, n, m, l) := by
  unfold visits
  simp only [List.mem_flatMap, List.mem_map, mem_intRange]
  constructor
  · rintro ⟨n, hn, m, hm, l, hl, rfl⟩
    exact ⟨n, m, l, hn, hm, hl, rfl⟩
  · rintro ⟨n, m, l, hn, hm, hl, rfl⟩
    exact ⟨n, hn, m, hm, l, hl, rfl⟩

variable {K : Type}

theorem Mat.resize_eq_ok (out : Mat K) (r c : Nat) (h : out.rows = r ∧ out.cols = c) :
    out.resize r c = .ok out := by
  unfold Mat.resize
  rw [if_pos h]

theorem Mat.resize_eq_error (out : Mat K) (r c : Nat) (h : ¬ (out.rows = r ∧ out.cols = c)) :
    out.resize r c = .error .resize := by
  unfold Mat.resize
  rw [if_neg h]

theorem Mat.resize_ok_iff (out o : Mat K) (r c : Nat) :
    out.resize r c = .ok o ↔ (out.rows = r ∧ out.cols = c) ∧ o = out := by
  unfold Mat.resize
  split
  · rename_i h
    constructor
    · intro e
      cases e
      exact ⟨h, rfl⟩
    · rintro ⟨_, rfl⟩
      rfl
  · rename_i h
    constructor
    · intro e
      cases e
    · rintro ⟨h', _⟩
      exact absurd h' h

theorem Mat.fill_zero_eq [Zero K] (out : Mat K) (r c : Nat) (h : out.rows = r ∧ out.cols = c) :
    out.fill 0 = Mat.zeros r c := by
  obtain ⟨h1, h2⟩ := h
  subst h1
  subst h2
  rfl

theorem Mat.rowAxpy_eq_ok [Add K] [Mul K] (out : Mat K) (t : Int) (c : K) (input : Mat K)
    (s : Int) (h : 0 ≤ t ∧ t < out.rows ∧ 0 ≤ s ∧ s < input.rows) :
    out.rowAxpy t c input s = .ok (out.rowAdd t.toNat c input s.toNat) := by
  unfold Mat.rowAxpy
  rw [if_pos h]
  rfl

namespace CachedCoAxialRecurrence

theorem index_eq {n m : Int} (h : |m| ≤ n) : index n m = n * n + n + m := by
  unfold index
  rw [if_neg (not_lt.2 h)]

theorem index_bounds {N n m : Int} (h : |m| ≤ n) (hn : n ≤ N) :
    0 ≤ n * n + n + m ∧ n * n + n + m < (N + 1) * (N + 1) := by
  obtain ⟨h1, h2⟩ := abs_le.1 h
  have h0 : 0 ≤ n := le_trans (abs_nonneg m) h
  constructor
  · nlinarith
  · nlinarith

theorem applyBody_visit [Add K] [Mul K] (coeff : Int → Int → Int → K) (input : Mat K) (N : Int)
    (hrows : (input.rows : Int) = (N + 1) * (N + 1)) (v : Int × Int × Int × Int)
    (hv : v ∈ visits N) (out : Mat K) (hout : out.rows = input.rows) :
    applyBody coeff input v.1 v.2.1 v.2.2.1 v.2.2.2 out = .ok (applyStep coeff input out v)
      ∧ (applyStep coeff input out v).rows = input.rows := by
  obtain ⟨n, m, l, hn, hm, hl, rfl⟩ := mem_visits.1 hv
  have hmn : |m| ≤ n := abs_le.2 hm
  have b1 := index_bounds hmn hn.2
  have b2 := index_bounds hl.1 hl.2
  refine ⟨?_, hout⟩
  simp only [applyBody, index_eq hmn, index_eq hl.1, ne_eq, not_true_eq_false, if_false]
  rw [Mat.rowAxpy_eq_ok]
  · rfl
  · rw [hout, hrows]
    exact ⟨b2.1, b2.2, b1.1, b1.2⟩

theorem shapeCheck_sq (N : Nat) : shapeCheck ((N + 1) * (N + 1)) = .ok (N : Int) := by
  have hs : Nat.sqrt ((N + 1) * (N + 1)) = N + 1 := Nat.sqrt_eq (N + 1)
  have hn : nmaxOf ((N + 1) * (N + 1)) = (N : Int) := by
    simp only [nmaxOf, hs]
    rw [if_neg (by omega)]
    push_cast
    ring
  unfold shapeCheck
  simp only [hn]
  rw [if_neg, if_neg]
  · omega
  · push_cast; simp

/-- On an input with `(N + 1)^2` rows the engine succeeds and returns `applyResult`. -/
theorem apply_eq_ok [Zero K] [Add K] [Mul K] (coeff : Int → Int → Int → K) (out input : Mat K)
    (hout : out.rows = input.rows ∧ out.cols = input.cols)
    (N : Nat) (hrows : input.rows = (N + 1) * (N + 1)) :
    apply coeff out input = .ok (applyResult coeff N input)
      ∧ (applyResult coeff N input).rows = input.rows := by
  have hr : (input.rows : Int) = ((N : Int) + 1) * ((N : Int) + 1) := by
    rw [hrows]; push_cast; ring
  have h := foldlM_eq_ok_foldl (fun o : Mat K => o.rows = input.rows)
    (fun s v => applyBody coeff input v.1 v.2.1 v.2.2.1 v.2.2.2 s) (applyStep coeff input)
    (visits N) (Mat.zeros input.rows input.cols) rfl
    (fun v hv s hs => applyBody_visit coeff input N hr v hv s hs)
  refine ⟨?_, h.2⟩
  unfold apply
  rw [Mat.resize_eq_ok out _ _ hout, Except.bind_ok_eq, Mat.fill_zero_eq out _ _ hout]
  rw [hrows, shapeCheck_sq, Except.bind_ok_eq, harmonicsLoop_eq_foldlM, ← hrows]
  exact h.1

end CachedCoAxialRecurrence

theorem foldl_flatMap_eq {α β γ : Type} (f : γ → β → γ) (g : α → List β) (xs : List α) (acc : γ) :
    (xs.flatMap g).foldl f acc = xs.foldl (fun acc x => (g x).foldl f acc) acc := by
  induction xs generalizing acc with
  | nil => rfl
  | cons x xs ih => rw [List.flatMap_cons, List.foldl_append, ih, List.foldl_cons]

namespace CachedCoAxialRecurrence

/-- The flat index is injective on the pairs with `|m| ≤ l`. -/
theorem flat_index_inj {l m l0 m0 : Int} (h : |m| ≤ l) (h0 : |m0| ≤ l0)
    (e : l * l + l + m = l0 * l0 + l0 + m0) : l = l0 ∧ m = m0 := by
  obtain ⟨h1, h2⟩ := abs_le.1 h
  obtain ⟨h3, h4⟩ := abs_le.1 h0
  have hl : l = l0 := by
    rcases lt_trichotomy l l0 with hlt | heq | hgt
    · exfalso
      have : (l + 1) * (l + 1) ≤ l0 * l0 := by nlinarith
      nlinarith
    · exact heq
    · exfalso
      have : (l0 + 1) * (l0 + 1) ≤ l * l := by nlinarith
      nlinarith
  subst hl
  exact ⟨rfl, by omega⟩

/-- One entry of the folded output only sees the steps that target its row. -/
theorem foldl_applyStep_entry [Add K] [Mul K] (coeff : Int → Int → Int → K) (input : Mat K)
    (vs : List (Int × Int × Int × Int)) (out : Mat K) (t c : Nat) :
    (vs.foldl (applyStep coeff input) out).entry t c
      = vs.foldl (fun acc v =>
          if t = (v.2.2.2 * v.2.2.2 + v.2.2.2 + v.2.2.1).toNat then
            acc + coeff v.2.1 v.2.2.1 v.2.2.2 * input.entry v.1.toNat c
          else acc) (out.entry t c) := by
  induction vs generalizing out with
  | nil => rfl
  | cons v vs ih =>
    rw [List.foldl_cons, List.foldl_cons, ih]
    rfl

/-- Row `l0 * l0 + l0 + m0` of the engine's result is the sum, in ascending `n`, of the terms
`coeff n m0 l0 * input.row(n * n + n + m0)`. -/
theorem applyResult_entry [Zero K] [Add K] [Mul K] (coeff : Int → Int → Int → K) (N : Int)
    (input : Mat K) (l0 m0 : Int) (hm : |m0| ≤ l0) (hl : l0 ≤ N) (c : Nat) :
    (applyResult coeff N input).entry (l0 * l0 + l0 + m0).toNat c
      = (intRange |m0| N).foldl
          (fun acc n => acc + coeff n m0 l0 * input.entry (n * n + n + m0).toNat c) 0 := by
  have hb0 := (index_bounds hm hl).1
  unfold applyResult
  rw [foldl_applyStep_entry]
  unfold visits
  rw [foldl_flatMap_eq]
  have hout : (Mat.zeros input.rows input.cols : Mat K).entry (l0 * l0 + l0 + m0).toNat c = 0 := rfl
  rw [hout]
  -- the loop over `m` and `l` at a fixed degree `n`
  have hdeg : ∀ n ∈ intRange 0 N, ∀ acc : K,
      ((intRange (-n) n).flatMap (fun m =>
          (intRange |m| N).map (fun l => (n * n + n + m, n, m, l)))).foldl
        (fun acc v =>
          if (l0 * l0 + l0 + m0).toNat = (v.2.2.2 * v.2.2.2 + v.2.2.2 + v.2.2.1).toNat then
            acc + coeff v.2.1 v.2.2.1 v.2.2.2 * input.entry v.1.toNat c
          else acc) acc
      = if |m0| ≤ n then acc + coeff n m0 l0 * input.entry (n * n + n + m0).toNat c else acc := by
    intro n _ acc
    rw [foldl_flatMap_eq]
    simp only [List.foldl_map]
    -- the loop over `l` at fixed `n`, `m`
    have hord : ∀ m ∈ intRange (-n) n, ∀ acc : K,
        (intRange |m| N).foldl
          (fun acc l =>
            if (l0 * l0 + l0 + m0).toNat = (l * l + l + m).toNat then
              acc + coeff n m l * input.entry (n * n + n + m).toNat c
            else acc) acc
        = if m = m0 then acc + coeff n m0 l0 * input.entry (n * n + n + m0).toNat c
          else acc := by
      intro m _ acc
      by_cases hmm : m = m0
      · subst hmm
        rw [if_pos rfl]
        rw [foldl_single _ _ l0 acc (nodup_intRange _ _) (mem_intRange.2 ⟨hm, hl⟩)]
        · rw [if_pos rfl]
        · intro l hlmem hne acc
          rw [if_neg]
          intro e
          have hb := (index_bounds (mem_intRange.1 hlmem).1 (mem_intRange.1 hlmem).2).1
          have e2 : l * l + l + m = l0 * l0 + l0 + m := by omega
          exact hne (flat_index_inj (mem_intRange.1 hlmem).1 hm e2).1
      · rw [if_neg hmm]
        apply foldl_none
        intro l hlmem acc
        rw [if_neg]
        intro e
        have hb := (index_bounds (mem_intRange.1 hlmem).1 (mem_intRange.1 hlmem).2).1
        have e2 : l * l + l + m = l0 * l0 + l0 + m0 := by omega
        exact hmm (flat_index_inj (mem_intRange.1 hlmem).1 hm e2).2
    rw [foldl_congr_mem _ _ _ _ hord]
    by_cases hn : |m0| ≤ n
    · rw [if_pos hn, foldl_single _ _ m0 acc (nodup_intRange _ _) (mem_intRange.2 (abs_le.1 hn))]
      · rw [if_pos rfl]
      · intro m _ hne acc
        rw [if_neg hne]
    · rw [if_neg hn]
      apply foldl_none
      intro m hmem acc
      rw [if_neg]
      intro e
      subst e
      exact hn (abs_le.2 (mem_intRange.1 hmem))
  rw [foldl_congr_mem _ _ _ _ hdeg]
  have h0 : (0 : Int) ≤ |m0| := abs_nonneg m0
  rw [intRange_split h0 (by omega : |m0| ≤ N + 1), List.foldl_append]
  rw [foldl_none _ (intRange 0 (|m0| - 1))]
  · apply foldl_congr_mem
    intro n hn acc
    rw [if_pos (mem_intRange.1 hn).1]
  · intro n hn acc
    rw [if_neg]
    have := (mem_intRange.1 hn).2
    omega

/-- The counter equals `n * n + n + m` whenever the body runs. -/
theorem harmonicsLoop_counter {σ : Type} (N : Int)
    (body : Int → Int → Int → Int → σ → Except Fault σ) (s : σ) :
    harmonicsLoop N body s = harmonicsLoop N (fun _ n m l => body (n * n + n + m) n m l) s := by
  rw [harmonicsLoop_eq_foldlM, harmonicsLoop_eq_foldlM]
  apply foldlM_congr_mem
  intro v hv acc
  obtain ⟨n, m, l, _, _, _, rfl⟩ := mem_visits.1 hv
  rfl

/-- The assertion `i == index(n, m)` holds whenever the body runs. -/
theorem harmonicsLoop_assert {σ : Type} (N : Int)
    (body : Int → Int → Int → Int → σ → Except Fault σ) (s : σ) :
    harmonicsLoop N
        (fun i n m l s => if i ≠ index n m then .error .indexMismatch else body i n m l s) s
      = harmonicsLoop N body s := by
  rw [harmonicsLoop_eq_foldlM, harmonicsLoop_eq_foldlM]
  apply foldlM_congr_mem
  intro v hv acc
  obtain ⟨n, m, l, _, hm, _, rfl⟩ := mem_visits.1 hv
  simp only [index_eq (abs_le.2 hm), ne_eq, not_true_eq_false, if_false]

/-- A fold whose steps never raise the fault `e` never raises it. -/
theorem foldlM_ne_error {α β : Type} (e : Fault) (f : β → α → Except Fault β) (xs : List α)
    (acc : β) (h : ∀ x ∈ xs, ∀ s, f s x ≠ .error e) : xs.foldlM f acc ≠ .error e := by
  induction xs generalizing acc with
  | nil => intro h'; cases h'
  | cons x xs ih =>
    rw [List.foldlM_cons]
    cases hfx : f acc x with
    | error e' =>
      intro h'
      have : e' = e := by cases h'; rfl
      subst this
      exact h x (List.mem_cons_self _ _) acc hfx
    | ok s => exact ih s (fun y hy => h y (List.mem_cons_of_mem _ hy))

theorem rowAxpy_ne_indexMismatch [Add K] [Mul K] (out : Mat K) (t : Int) (c : K) (input : Mat K)
    (s : Int) : out.rowAxpy t c input s ≠ .error .indexMismatch := by
  unfold Mat.rowAxpy
  split
  · intro h; cases h
  · intro h; cases h

theorem apply_ne_indexMismatch [Zero K] [Add K] [Mul K] (coeff : Int → Int → Int → K)
    (out input : Mat K) : apply coeff out input ≠ .error .indexMismatch := by
  unfold apply
  by_cases hout : out.rows = input.rows ∧ out.cols = input.cols
  swap
  · rw [Mat.resize_eq_error out _ _ hout]
    intro h
    cases h
  rw [Mat.resize_eq_ok out _ _ hout, Except.bind_ok_eq]
  cases hs : shapeCheck input.rows with
  | error e =>
    rw [Except.bind_error_eq]
    intro h
    have he : e = .indexMismatch := by cases h; rfl
    subst he
    unfold shapeCheck at hs
    simp only [] at hs
    split at hs
    · cases hs
    · split at hs <;> cases hs
  | ok nmax =>
    rw [Except.bind_ok_eq, Mat.fill_zero_eq out _ _ hout]
    have h := harmonicsLoop_assert nmax
      (fun _ n m l (o : Mat K) => o.rowAxpy (index l m) (coeff n m l) input (index n m))
      (Mat.zeros input.rows input.cols)
    have e : (fun i n m l (s : Mat K) =>
        if i ≠ index n m then Except.error Fault.indexMismatch
        else s.rowAxpy (index l m) (coeff n m l) input (index n m)) = applyBody coeff input := by
      funext i n m l s
      rfl
    rw [e] at h
    rw [h, harmonicsLoop_eq_foldlM]
    apply foldlM_ne_error
    intro v _ s
    exact rowAxpy_ne_indexMismatch _ _ _ _ _

end CachedCoAxialRecurrence

namespace RotationCoefficients

variable {R C : Type} [Field R] [Field C]

theorem extends_refl {C : Type} (c : Cache C) : Cache.Extends c c := fun _ _ h => h

theorem extends_trans {C : Type} {c c' c'' : Cache C} (h : Cache.Extends c c')
    (h' : Cache.Extends c' c'') : Cache.Extends c c'' := fun k v hk => h' k v (h k v hk)

theorem cacheOK_empty (E : RotationCoefficients R C) : CacheOK E Cache.empty := by
  intro n m mu v h
  cases h

/-- Storing the value of the recurrence under a valid key keeps the cache sound and
extends it. -/
theorem cacheOK_insert (E : RotationCoefficients R C) (c : Cache C) (h : CacheOK E c)
    (n : Nat) (m mu : Int) (hm0 : 0 ≤ m) (hm : m.natAbs ≤ n) (hmu : mu.natAbs ≤ n) :
    CacheOK E (Cache.insert c (n, m, mu) (valueNonneg E m.toNat n mu))
      ∧ Cache.Extends c (Cache.insert c (n, m, mu) (valueNonneg E m.toNat n mu)) := by
  constructor
  · intro n' m' mu' v hv
    unfold Cache.insert at hv
    split at hv
    · rename_i hk
      cases hk
      cases hv
      exact ⟨hm0, hm, hmu, rfl⟩
    · exact h n' m' mu' v hv
  · intro k v hv
    unfold Cache.insert
    split
    · rename_i hk
      subst hk
      rw [(h n m mu v hv).2.2.2]
    · exact hv

/-- On a sound cache, a call with `m ≥ 0` returns the value of the recurrence and leaves a
sound cache that extends the given one. -/
theorem coefficient_nonneg (E : RotationCoefficients R C) (m : Nat) :
    ∀ (n : Nat) (mu : Int) (c : Cache C), CacheOK E c →
      ∃ c', coefficient E n (m : Int) mu c
          = .ok (if m > n ∨ mu.natAbs > n then 0 else valueNonneg E m n mu, c')
        ∧ CacheOK E c' ∧ Cache.Extends c c' := by
  induction m with
  | zero =>
    intro n mu c hc
    rw [coefficient]
    by_cases hr : mu.natAbs > n
    · refine ⟨c, ?_, hc, extends_refl c⟩
      simp [hr]
    · simp only [Nat.cast_zero, Int.natAbs_zero, gt_iff_lt, not_lt_zero', hr, or_self,
        if_false, lt_self_iff_false]
      cases hfind : c (n, 0, mu) with
      | some prior =>
        refine ⟨c, ?_, hc, extends_refl c⟩
        have := (hc n 0 mu prior hfind).2.2.2
        simp only [Int.toNat_zero] at this
        rw [this]
      | none =>
        simp only [if_true, Except.bind_ok_eq]
        have hi := cacheOK_insert E c hc n 0 mu (le_refl 0) (by simp) (by omega)
        have hv : valueNonneg E 0 n mu = E.initial n mu := by
          simp [valueNonneg, hr]
        simp only [Int.toNat_zero, hv] at hi
        exact ⟨_, by simp [valueNonneg, hr], hi.1, hi.2⟩
  | succ m ih =>
    intro n mu c hc
    rw [coefficient]
    by_cases hr : m + 1 > n ∨ mu.natAbs > n
    · refine ⟨c, ?_, hc, extends_refl c⟩
      have : ((m : Int) + 1).natAbs = m + 1 := by omega
      simp only [Nat.cast_add, Nat.cast_one, this]
      rw [if_pos hr, if_pos hr]
    · have hna : ((m : Int) + 1).natAbs = m + 1 := by omega
      have hnl : ¬ ((m : Int) + 1 < 0) := by omega
      have hne : ¬ ((m : Int) + 1 = 0) := by omega
      simp only [Nat.cast_add, Nat.cast_one, hna, hr, if_false, hnl, hne]
      have htn : ((m : Int) + 1).toNat = m + 1 := by omega
      cases hfind : c (n, (m : Int) + 1, mu) with
      | some prior =>
        refine ⟨c, ?_, hc, extends_refl c⟩
        have := (hc n ((m : Int) + 1) mu prior hfind).2.2.2
        rw [htn] at this
        rw [this]
      | none =>
        simp only []
        rw [recursion]
        have hn1 : n ≥ 1 := by omega
        simp only [hn1, not_true_eq_false, if_false, add_sub_cancel_right]
        have hmu : mu.natAbs ≤ n := by omega
        have hm : m ≤ n + 1 := by omega
        obtain ⟨c0, e0, ok0, ex0⟩ := ih (n + 1) (mu + 1) c hc
        obtain ⟨c1, e1, ok1, ex1⟩ := ih (n + 1) (mu - 1) c0 ok0
        obtain ⟨c2, e2, ok2, ex2⟩ := ih (n + 1) mu c1 ok1
        rw [if_neg (by omega)] at e0 e1 e2
        rw [e0, Except.bind_ok_eq]
        simp only []
        rw [e1, Except.bind_ok_eq]
        simp only []
        rw [e2, Except.bind_ok_eq, Except.bind_ok_eq]
        simp only []
        have hv : valueNonneg E (m + 1) n mu
            = (factors E n ((m : Int) + 1) mu).1 * valueNonneg E m (n + 1) (mu + 1) +
              (factors E n ((m : Int) + 1) mu).2.1 * valueNonneg E m (n + 1) (mu - 1) +
              (factors E n ((m : Int) + 1) mu).2.2 * valueNonneg E m (n + 1) mu := by
          rw [valueNonneg, if_neg hr]
        rw [← hv]
        have hi := cacheOK_insert E c2 ok2 n ((m : Int) + 1) mu (by omega) (by omega) hmu
        rw [htn] at hi
        exact ⟨_, rfl, hi.1, extends_trans (extends_trans ex0 (extends_trans ex1 ex2)) hi.2⟩


/-- On a sound cache every call returns the value of the recurrence and leaves a sound
cache that extends the given one. -/
theorem coefficient_sound (E : RotationCoefficients R C) (n : Nat) (m mu : Int) (c : Cache C)
    (hc : CacheOK E c) :
    ∃ c', coefficient E n m mu c = .ok (value E n m mu, c') ∧ CacheOK E c'
      ∧ Cache.Extends c c' := by
  by_cases hr : m.natAbs > n ∨ mu.natAbs > n
  · refine ⟨c, ?_, hc, extends_refl c⟩
    rw [coefficient, value, if_pos hr, if_pos hr]
  · by_cases hneg : m < 0
    · rw [coefficient, value, if_neg hr, if_neg hr, if_pos hneg, if_pos hneg]
      obtain ⟨c', e, ok, ex⟩ := coefficient_nonneg E (-m).toNat n (-mu) c hc
      have hcast : (((-m).toNat : Nat) : Int) = -m := by omega
      rw [hcast, if_neg (by omega)] at e
      rw [e, Except.bind_ok_eq]
      exact ⟨c', rfl, ok, ex⟩
    · obtain ⟨c', e, ok, ex⟩ := coefficient_nonneg E m.toNat n mu c hc
      have hcast : ((m.toNat : Nat) : Int) = m := by omega
      rw [hcast, if_neg (by omega)] at e
      refine ⟨c', ?_, ok, ex⟩
      rw [e, value, if_neg hr, if_neg hneg]

theorem reachable_cacheOK (E : RotationCoefficients R C) (c : Cache C) (h : Reachable E c) :
    CacheOK E c := by
  induction h with
  | empty => exact cacheOK_empty E
  | call c c' n m mu v _ hcall ih =>
    obtain ⟨d, e, ok, _⟩ := coefficient_sound E n m mu c ih
    rw [e] at hcall
    cases hcall
    exact ok

/-- On a cache the engine can hold, every call returns the value of the recurrence. -/
theorem coefficient_reachable (E : RotationCoefficients R C) (n : Nat) (m mu : Int)
    (c : Cache C) (hc : Reachable E c) :
    ∃ c', coefficient E n m mu c = .ok (value E n m mu, c') :=
  let ⟨c', e, _, _⟩ := coefficient_sound E n m mu c (reachable_cacheOK E c hc)
  ⟨c', e⟩

theorem natAbs_gt_iff (n : Nat) (m : Int) : m.natAbs > n ↔ (n : Int) < |m| := by
  rw [Int.abs_eq_natAbs]
  omega

/-- Out of range orders: zero, and the cache is left as it was. -/
theorem coefficient_out_of_range (E : RotationCoefficients R C) (n : Nat) (m mu : Int)
    (c : Cache C) (h : (n : Int) < |m| ∨ (n : Int) < |mu|) :
    coefficient E n m mu c = .ok (0, c) := by
  rw [← natAbs_gt_iff, ← natAbs_gt_iff] at h
  rw [coefficient, if_pos h]

/-- The recurrence is invariant under conjugation and change of sign of both orders. -/
theorem value_conj (E : RotationCoefficients R C)
    (hconj : ∀ z : C, E.num.conj (E.num.conj z) = z)
    (hinit : ∀ (n : Nat) (mu : Int), mu.natAbs ≤ n →
      E.initial n mu = E.num.conj (E.initial n (-mu)))
    (n : Nat) (m mu : Int) (hm : m.natAbs ≤ n) (hmu : mu.natAbs ≤ n) :
    value E n m mu = E.num.conj (value E n (-m) (-mu)) := by
  have hr : ¬ (m.natAbs > n ∨ mu.natAbs > n) := by omega
  have hr' : ¬ ((-m).natAbs > n ∨ (-mu).natAbs > n) := by
    rw [Int.natAbs_neg, Int.natAbs_neg]; exact hr
  rw [value, value, if_neg hr, if_neg hr']
  rcases lt_trichotomy m 0 with h | h | h
  · rw [if_pos h, if_neg (by omega)]
  · subst h
    simp only [lt_self_iff_false, if_false, neg_zero, Int.toNat_zero, valueNonneg]
    rw [if_neg (by omega), if_neg (by rw [Int.natAbs_neg]; omega)]
    exact hinit n mu hmu
  · rw [if_neg (by omega), if_pos (by omega), neg_neg, neg_neg, hconj]

/-- The recurrence at an order `m ≥ 1`, and at `m = 0`. -/
theorem value_step (E : RotationCoefficients R C) (n : Nat) (m mu : Int)
    (hm1 : 1 ≤ m) (hmn : m ≤ n) (hmu : |mu| ≤ (n : Int)) :
    value E n m mu
      = (factors E n m mu).1 * value E (n + 1) (m - 1) (mu + 1)
        + (factors E n m mu).2.1 * value E (n + 1) (m - 1) (mu - 1)
        + (factors E n m mu).2.2 * value E (n + 1) (m - 1) mu := by
  have hmu' : mu.natAbs ≤ n := by
    rw [Int.abs_eq_natAbs] at hmu; omega
  obtain ⟨k, rfl⟩ : ∃ k : Nat, m = (k : Int) + 1 := ⟨(m - 1).toNat, by omega⟩
  have v0 : ∀ nu : Int, nu.natAbs ≤ n + 1 →
      value E (n + 1) ((k : Int) + 1 - 1) nu = valueNonneg E k (n + 1) nu := by
    intro nu hnu
    rw [value, if_neg (by omega), if_neg (by omega)]
    congr 1
    omega
  rw [v0 _ (by omega), v0 _ (by omega), v0 _ (by omega)]
  rw [value, if_neg (by omega), if_neg (by omega)]
  have : ((k : Int) + 1).toNat = k + 1 := by omega
  rw [this, valueNonneg, if_neg (by omega)]

theorem value_zero (E : RotationCoefficients R C) (n : Nat) (mu : Int)
    (hmu : |mu| ≤ (n : Int)) : value E n 0 mu = E.initial n mu := by
  have hmu' : mu.natAbs ≤ n := by
    rw [Int.abs_eq_natAbs] at hmu; omega
  rw [value, if_neg (by simp; omega), if_neg (by omega)]
  simp only [Int.toNat_zero, valueNonneg]
  rw [if_neg (by omega)]

end RotationCoefficients

theorem u64_natCast (x : Nat) : u64 (x : Int) = x % 2 ^ 64 := by
  unfold u64
  omega

/-- A product of two consecutive numbers below `2^64` is not a multiple of `2^64`. -/
theorem consecutive_mod_ne_zero (k : Nat) (hk : 0 < k) (hlt : k + 1 < 2 ^ 64) :
    (k * (k + 1)) % 2 ^ 64 ≠ 0 := by
  intro h
  have hd : 2 ^ 64 ∣ k * (k + 1) := Nat.dvd_of_mod_eq_zero h
  rcases Nat.even_or_odd k with he | ho
  · have hodd : Odd (k + 1) := he.add_one
    have hc : Nat.Coprime (2 ^ 64) (k + 1) :=
      Nat.Coprime.pow_left 64 ((Nat.coprime_two_left).2 hodd)
    have : 2 ^ 64 ∣ k := hc.dvd_of_dvd_mul_right hd
    have := Nat.le_of_dvd hk this
    omega
  · have hc : Nat.Coprime (2 ^ 64) k := Nat.Coprime.pow_left 64 ((Nat.coprime_two_left).2 ho)
    have : 2 ^ 64 ∣ k + 1 := hc.dvd_of_dvd_mul_left hd
    have := Nat.le_of_dvd (Nat.succ_pos k) this
    omega

theorem odd_mod_ne_zero (x : Nat) (hx : x % 2 = 1) : x % 2 ^ 64 ≠ 0 := by
  omega

namespace RotationCoefficients

variable {R C : Type} [LinearOrderedField R] [Field C]

omit [Field C] in
/-- The divisor `b(n + 1, m - 1)` of `factors` is positive for `1 ≤ m ≤ n`. -/
theorem b_divisor_pos (P : Numerics R C) (hs : ∀ x : R, 0 < x → 0 < P.sqrt x) (n m : Nat)
    (hm1 : 1 ≤ m) (hmn : m ≤ n) (hfit : n + 2 < 2 ^ 64 + m) :
    0 < b P (n + 1) ((m : Int) - 1) := by
  unfold b
  rw [if_neg (by omega), if_pos (by omega), one_mul]
  apply hs
  have e1 : (((n + 1 : Nat) : Int) - ((m : Int) - 1) - 1) * (((n + 1 : Nat) : Int) - ((m : Int) - 1))
      = (((n - m + 1) * (n - m + 1 + 1) : Nat) : Int) := by
    push_cast [Nat.cast_sub hmn]
    ring
  have e2 : (2 * ((n + 1 : Nat) : Int) - 1) * (2 * ((n + 1 : Nat) : Int) + 1)
      = (((2 * n + 1) * (2 * n + 3) : Nat) : Int) := by
    push_cast
    ring
  rw [e1, e2, u64_natCast, u64_natCast]
  apply div_pos
  · have := consecutive_mod_ne_zero (n - m + 1) (by omega) (by omega)
    exact Nat.cast_pos.2 (Nat.pos_of_ne_zero this)
  · have hodd : ((2 * n + 1) * (2 * n + 3)) % 2 = 1 := by
      rw [Nat.mul_mod]
      have h1 : (2 * n + 1) % 2 = 1 := by omega
      have h2 : (2 * n + 3) % 2 = 1 := by omega
      rw [h1, h2]
    exact Nat.cast_pos.2 (Nat.pos_of_ne_zero (odd_mod_ne_zero _ hodd))


/-- The weights of the recurrence at zero Euler angles: only the middle one survives. -/
theorem factors_zero_angles (E : RotationCoefficients R C) (hE : E.num.Exact)
    (ht : E.theta = 0) (hp : E.phi = 0) (hx : E.chi = 0) (n m : Nat) (mu : Int)
    (hm1 : 1 ≤ m) (hmn : m ≤ n) (hfit : n + 2 < 2 ^ 64 + m) :
    (factors E n m mu).1 = 0 ∧ (factors E n m mu).2.2 = 0
      ∧ (mu = m → (factors E n m mu).2.1 = -1) := by
  have hb := b_divisor_pos E.num hE.sqrt_pos n m hm1 hmn hfit
  have hb0 : E.num.ofReal (b E.num (n + 1) ((m : Int) - 1)) ≠ 0 := by
    intro h0
    have h1 : E.num.ofReal (b E.num (n + 1) ((m : Int) - 1) * (b E.num (n + 1) ((m : Int) - 1))⁻¹)
        = 1 := by
      rw [mul_inv_cancel₀ (ne_of_gt hb), hE.ofReal_one]
    rw [hE.ofReal_mul, h0, zero_mul] at h1
    exact zero_ne_one h1
  have hhalf : E.num.ofReal (1 / 2) * E.num.ofReal (1 + 1) = 1 := by
    rw [← hE.ofReal_mul]
    have : (1 / 2 : R) * (1 + 1) = 1 := by norm_num
    rw [this, hE.ofReal_one]
  unfold factors
  simp only [ht, hp, hx, hE.cos_zero, hE.sin_zero, hE.expI_zero, neg_zero, sub_self,
    hE.ofReal_zero, mul_zero, true_and]
  intro hmu
  subst hmu
  field_simp
  calc E.num.ofReal (1 / 2) * E.num.ofReal (b E.num (n + 1) ((m : Int) - 1)) * E.num.ofReal (1 + 1)
      = (E.num.ofReal (1 / 2) * E.num.ofReal (1 + 1)) * E.num.ofReal (b E.num (n + 1) ((m : Int) - 1)) := by
        ring
    _ = E.num.ofReal (b E.num (n + 1) ((m : Int) - 1)) := by rw [hhalf, one_mul]

/-- At zero Euler angles, with `initial` the identity, the recurrence yields `(-1)^m` on
the diagonal and zero elsewhere. -/
theorem valueNonneg_zero_angles (E : RotationCoefficients R C) (hE : E.num.Exact)
    (ht : E.theta = 0) (hp : E.phi = 0) (hx : E.chi = 0)
    (hinit : ∀ (n : Nat) (mu : Int), E.initial n mu = if mu = 0 then 1 else 0) (m : Nat) :
    ∀ (n : Nat) (mu : Int), m ≤ n → mu.natAbs ≤ n → n + m + 1 < 2 ^ 64 →
      valueNonneg E m n mu = if mu = (m : Int) then (-1) ^ m else 0 := by
  induction m with
  | zero =>
    intro n mu _ hmu _
    rw [valueNonneg, if_neg (by omega), hinit]
    simp
  | succ m ih =>
    intro n mu hmn hmu hfit
    rw [valueNonneg, if_neg (by omega)]
    have hf := factors_zero_angles E hE ht hp hx n (m + 1) mu (by omega) hmn (by omega)
    have hcast : (((m + 1 : Nat) : Int)) = (m : Int) + 1 := by push_cast; rfl
    rw [hcast] at hf
    rw [hf.1, hf.2.1, zero_mul, zero_mul, zero_add, add_zero,
      ih (n + 1) (mu - 1) (by omega) (by omega) (by omega)]
    by_cases hd : mu = (m : Int) + 1
    · rw [hf.2.2 hd, if_pos (by omega), hcast, if_pos hd, pow_succ]
      ring
    · rw [if_neg (by omega), mul_zero, hcast, if_neg hd]

theorem value_zero_angles (E : RotationCoefficients R C) (hE : E.num.Exact)
    (ht : E.theta = 0) (hp : E.phi = 0) (hx : E.chi = 0)
    (hinit : ∀ (n : Nat) (mu : Int), E.initial n mu = if mu = 0 then 1 else 0)
    (n : Nat) (m mu : Int) (hm : |m| ≤ (n : Int)) (hmu : |mu| ≤ (n : Int))
    (hfit : n + m.natAbs + 1 < 2 ^ 64) :
    value E n m mu = if m = mu then (-1) ^ m.natAbs else 0 := by
  rw [Int.abs_eq_natAbs] at hm hmu
  rw [value, if_neg (by omega)]
  by_cases hneg : m < 0
  · rw [if_pos hneg, valueNonneg_zero_angles E hE ht hp hx hinit _ n (-mu) (by omega) (by omega)
      (by omega)]
    have e : (-m).toNat = m.natAbs := by omega
    rw [e]
    by_cases hd : m = mu
    · rw [if_pos (by omega), if_pos hd]
      rcases neg_one_pow_eq_or C m.natAbs with h | h
      · rw [h, hE.conj_one]
      · rw [h, hE.conj_neg, hE.conj_one]
    · rw [if_neg (by omega), if_neg hd, hE.conj_zero]
  · rw [if_neg hneg, valueNonneg_zero_angles E hE ht hp hx hinit _ n mu (by omega) (by omega)
      (by omega)]
    have e : m.toNat = m.natAbs := by omega
    rw [e]
    by_cases hd : m = mu
    · rw [if_pos (by omega), if_pos hd]
    · rw [if_neg (by omega), if_neg hd]

end RotationCoefficients

/-! ## The model of the inferred degree and of the numerics -/

namespace CachedCoAxialRecurrence

/-- The degree `nmaxOf rows` is the real number `√rows - 1` rounded to the nearest
integer, which is what `std::lround(std::sqrt(rows) - 1.0)` computes when the square root
is exact to within the distance of `√rows` to the nearest half-integer. -/
theorem nmaxOf_eq_round (r : Nat) : nmaxOf r = round (Real.sqrt (r : ℝ) - 1) := by
  have h1 : Nat.sqrt r * Nat.sqrt r ≤ r := Nat.sqrt_le r
  have h2 : r < (Nat.sqrt r + 1) * (Nat.sqrt r + 1) := Nat.lt_succ_sqrt r
  have h1r : ((Nat.sqrt r : ℝ)) * (Nat.sqrt r : ℝ) ≤ (r : ℝ) := by exact_mod_cast h1
  have h2r : (r : ℝ) < ((Nat.sqrt r : ℝ) + 1) * ((Nat.sqrt r : ℝ) + 1) := by exact_mod_cast h2
  have hs0 : (0 : ℝ) ≤ (Nat.sqrt r : ℝ) := Nat.cast_nonneg _
  rw [round_sub_one, round_eq, nmaxOf]
  congr 1
  symm
  rw [Int.floor_eq_iff]
  by_cases hc : Nat.sqrt r < r - Nat.sqrt r * Nat.sqrt r
  · rw [if_pos hc]
    have h3 : Nat.sqrt r * Nat.sqrt r + Nat.sqrt r + 1 ≤ r := by omega
    have h3r : (Nat.sqrt r : ℝ) * (Nat.sqrt r : ℝ) + (Nat.sqrt r : ℝ) + 1 ≤ (r : ℝ) := by
      exact_mod_cast h3
    push_cast
    constructor
    · have : (Nat.sqrt r : ℝ) + 1 / 2 ≤ Real.sqrt (r : ℝ) := by
        rw [Real.le_sqrt (by positivity) (Nat.cast_nonneg r)]
        nlinarith
      linarith
    · have : Real.sqrt (r : ℝ) < (Nat.sqrt r : ℝ) + 1 := by
        rw [Real.sqrt_lt' (by positivity)]
        nlinarith
      linarith
  · rw [if_neg hc]
    have h3 : r ≤ Nat.sqrt r * Nat.sqrt r + Nat.sqrt r := by omega
    have h3r : (r : ℝ) ≤ (Nat.sqrt r : ℝ) * (Nat.sqrt r : ℝ) + (Nat.sqrt r : ℝ) := by
      exact_mod_cast h3
    push_cast
    constructor
    · have : (Nat.sqrt r : ℝ) ≤ Real.sqrt (r : ℝ) := by
        rw [Real.le_sqrt hs0 (Nat.cast_nonneg r)]
        nlinarith
      linarith
    · have : Real.sqrt (r : ℝ) < (Nat.sqrt r : ℝ) + 1 / 2 := by
        rw [Real.sqrt_lt' (by positivity)]
        nlinarith
      linarith

/-- The shape assertions pass exactly on the squares of positive integers. -/
theorem shapeCheck_ok_iff (r : Nat) (nmax : Int) :
    shapeCheck r = .ok nmax ↔ 0 ≤ nmax ∧ (r : Int) = (nmax + 1) ^ 2 := by
  constructor
  · intro h
    unfold shapeCheck at h
    simp only [] at h
    split at h
    · cases h
    · rename_i h1
      split at h
      · cases h
      · rename_i h2
        cases h
        refine ⟨not_not.1 h2, ?_⟩
        rw [pow_two]
        exact (not_not.1 h1).symm
  · rintro ⟨h0, hr⟩
    obtain ⟨N, rfl⟩ : ∃ N : Nat, nmax = (N : Int) := ⟨nmax.toNat, by omega⟩
    have : r = (N + 1) * (N + 1) := by
      have : (r : Int) = (((N + 1) * (N + 1) : Nat) : Int) := by
        rw [hr]; push_cast; ring
      exact_mod_cast this
    rw [this]
    exact shapeCheck_sq N

end CachedCoAxialRecurrence

namespace RotationCoefficients

/-- The laws of `Numerics.Exact` hold for the real and complex elementary functions. -/
theorem real_numerics_exact :
    (⟨Real.sqrt, Real.cos, Real.sin, fun x => Complex.exp (x * Complex.I), fun x => (x : ℂ),
      fun z => (starRingEnd ℂ) z⟩ : Numerics ℝ ℂ).Exact where
  sqrt_pos := fun _ h => Real.sqrt_pos.2 h
  cos_zero := Real.cos_zero
  sin_zero := Real.sin_zero
  expI_zero := by simp
  ofReal_zero := Complex.ofReal_zero
  ofReal_one := Complex.ofReal_one
  ofReal_mul := Complex.ofReal_mul
  conj_zero := map_zero _
  conj_one := map_one _
  conj_neg := fun z => map_neg _ z

end RotationCoefficients

/-! ## The claims -/

namespace CachedCoAxialRecurrence

/-- Claim C3, the code at the failing input: a functor of degree `0` applied to a matrix
with one row and two columns, with an `out` of that shape, stops at its size assertion,
which compares `(N + 1)^2` with `input.size()`, the number of entries; the engine's apply
accepts the same input and the same `out`. -/
theorem functor_rejects_matrix_input :
    Functor.apply (⟨0, [5]⟩ : Functor Int) (Mat.zeros 1 2)
        (⟨1, 2, fun _ j => (j : Int)⟩ : Mat Int) = .error .shape
    ∧ ∃ res, apply (fun _ _ _ => (5 : Int)) (Mat.zeros 1 2)
        (⟨1, 2, fun _ j => (j : Int)⟩ : Mat Int) = .ok res :=
  ⟨rfl, _, (apply_eq_ok (fun _ _ _ => (5 : Int)) (Mat.zeros 1 2)
    (⟨1, 2, fun _ j => (j : Int)⟩ : Mat Int) ⟨rfl, rfl⟩ 0 rfl).1⟩

/-- Claim C4, the code at the failing input: a functor of degree `1` applied to a matrix
with two rows and two columns, with an `out` of that shape, passes its size assertion,
because the input has four entries, runs the loop and only stops at the first access to a
row that does not exist. -/
theorem functor_accepts_wrong_row_count :
    Functor.apply (⟨1, [0, 100, 91, 1, 101, 111]⟩ : Functor Int) (Mat.zeros 2 2)
        (⟨2, 2, fun i j => (i : Int) + j⟩ : Mat Int) = .error .rowRange
    ∧ Functor.applyBody (⟨2, 2, fun i j => (i : Int) + j⟩ : Mat Int) 0 0 0 0
        ([0, 100, 91, 1, 101, 111], Mat.zeros 2 2)
      = .ok ([100, 91, 1, 101, 111],
          (Mat.zeros 2 2 : Mat Int).rowAdd 0 0 (⟨2, 2, fun i j => (i : Int) + j⟩ : Mat Int) 0) := by
  constructor
  · rfl
  · rfl

/-- In exact integer arithmetic the shape assertions pass on a row count `r` exactly when
`r` is `(nmax + 1)^2` for an integer `nmax ≥ 0`, and `nmax` is then the degree inferred; on
every other row count, zero included, one of the two assertions fails. -/
theorem shapeCheck_accepts_iff (r : Nat) :
    (∀ nmax : Int, shapeCheck r = .ok nmax ↔ 0 ≤ nmax ∧ (r : Int) = (nmax + 1) ^ 2)
    ∧ ((∃ N : Nat, r = (N + 1) ^ 2 ∧ shapeCheck r = .ok (N : Int))
        ∨ ((¬ ∃ N : Nat, r = (N + 1) ^ 2)
            ∧ (shapeCheck r = .error .shape ∨ shapeCheck r = .error .negativeDegree)))
    ∧ shapeCheck 0 = .error .negativeDegree := by
  refine ⟨shapeCheck_ok_iff r, ?_, ?_⟩
  · by_cases h : ∃ N : Nat, r = (N + 1) ^ 2
    · obtain ⟨N, hN⟩ := h
      refine Or.inl ⟨N, hN, ?_⟩
      rw [hN, pow_two]
      exact shapeCheck_sq N
    · refine Or.inr ⟨h, ?_⟩
      cases hs : shapeCheck r with
      | ok nmax =>
        exfalso
        obtain ⟨h0, hr⟩ := (shapeCheck_ok_iff r nmax).1 hs
        apply h
        refine ⟨nmax.toNat, ?_⟩
        have : (r : Int) = (((nmax.toNat + 1) ^ 2 : Nat) : Int) := by
          rw [hr]; push_cast; rw [Int.toNat_of_nonneg h0]
        exact_mod_cast this
      | error e =>
        unfold shapeCheck at hs
        simp only [] at hs
        split at hs
        · cases hs; exact Or.inl rfl
        · split at hs
          · cases hs; exact Or.inr rfl
          · cases hs
  · unfold shapeCheck nmaxOf
    simp

end CachedCoAxialRecurrence

theorem i32_of_range (z : Int) (h0 : -2 ^ 31 ≤ z) (h1 : z < 2 ^ 31) : i32 z = z := by
  unfold i32
  omega

theorem i32_lt (z : Int) : i32 z < 2 ^ 31 := by
  unfold i32
  omega

namespace CachedCoAxialRecurrence

/-- Below `2^31` rows the inferred degree is between `-1` and `46340`. -/
theorem nmaxOf_bounds (r : Nat) (h : r < 2 ^ 31) : -1 ≤ nmaxOf r ∧ nmaxOf r ≤ 46340 := by
  have hs : Nat.sqrt r < 46341 := Nat.sqrt_lt'.2 (by omega)
  unfold nmaxOf
  simp only []
  split <;> omega

/-- Below `2^31` rows the 32-bit shape assertions and the exact ones agree. -/
theorem shapeCheckInt32_eq (r : Nat) (h : r < 2 ^ 31) : shapeCheckInt32 r = shapeCheck r := by
  obtain ⟨h1, h2⟩ := nmaxOf_bounds r h
  unfold shapeCheckInt32 shapeCheck
  simp only []
  rw [i32_of_range (nmaxOf r) (by omega) (by omega),
    i32_of_range (nmaxOf r + 1) (by omega) (by omega)]
  by_cases hk : nmaxOf r + 1 ≤ 46340
  · have hp0 : 0 ≤ (nmaxOf r + 1) * (nmaxOf r + 1) := mul_self_nonneg _
    have hp1 : (nmaxOf r + 1) * (nmaxOf r + 1) ≤ 46340 * 46340 :=
      mul_le_mul hk hk (by omega) (by omega)
    rw [i32_of_range _ (by omega) (by omega)]
  · have hk' : nmaxOf r + 1 = 46341 := by omega
    rw [hk']
    have hr : (r : Int) < 2 ^ 31 := by exact_mod_cast h
    have e1 : i32 (46341 * 46341) ≠ (r : Int) := by
      unfold i32
      omega
    have e2 : (46341 : Int) * 46341 ≠ (r : Int) := by omega
    rw [if_pos e1, if_pos e2]

/-- From `2^31` rows on the first assertion fails: a 32-bit product is below `2^31`. -/
theorem shapeCheckInt32_large (r : Nat) (h : 2 ^ 31 ≤ r) :
    shapeCheckInt32 r = .error .shape := by
  unfold shapeCheckInt32
  simp only []
  have hr : (2 : Int) ^ 31 ≤ (r : Int) := by exact_mod_cast h
  have := i32_lt (i32 (i32 (nmaxOf r) + 1) * i32 (i32 (nmaxOf r) + 1))
  rw [if_pos (by omega)]

/-- Claim C5 as stated fails: `2^32` is the square `(65535 + 1)^2`, the degree inferred from
`2^32` rows is `65535`, and the product `(nmax + 1) * (nmax + 1)` of two 32-bit integers
wraps to `0`, so the first shape assertion fails. -/
theorem shapeCheck_overflow_counterexample :
    (∃ N : Nat, 2 ^ 32 = (N + 1) ^ 2)
    ∧ nmaxOf (2 ^ 32) = 65535
    ∧ i32 (i32 (i32 65535 + 1) * i32 (i32 65535 + 1)) = 0
    ∧ shapeCheckInt32 (2 ^ 32) = .error .shape := by
  refine ⟨⟨65535, by norm_num⟩, ?_, by decide, shapeCheckInt32_large _ (by norm_num)⟩
  have hs : Nat.sqrt (2 ^ 32) = 65536 := (Nat.eq_sqrt.2 ⟨by norm_num, by norm_num⟩).symm
  unfold nmaxOf
  simp only [hs]
  norm_num

/-- Claim C5, amended: the engine's shape assertions pass on a row count `r` exactly when
`r` is `(nmax + 1)^2` for an integer `nmax ≥ 0` and `r` is below `2^31`, and `nmax` is then
the degree inferred; on every other row count, zero included, one of the two assertions
fails, and from `2^31` rows on it is the first one. -/
theorem shapeCheckInt32_accepts_iff (r : Nat) :
    (∀ nmax : Int, shapeCheckInt32 r = .ok nmax
        ↔ 0 ≤ nmax ∧ (r : Int) = (nmax + 1) ^ 2 ∧ r < 2 ^ 31)
    ∧ ((∃ N : Nat, r = (N + 1) ^ 2 ∧ r < 2 ^ 31 ∧ shapeCheckInt32 r = .ok (N : Int))
        ∨ ((¬ ∃ N : Nat, r = (N + 1) ^ 2 ∧ r < 2 ^ 31)
            ∧ (shapeCheckInt32 r = .error .shape
              ∨ shapeCheckInt32 r = .error .negativeDegree)))
    ∧ shapeCheckInt32 0 = .error .negativeDegree
    ∧ (2 ^ 31 ≤ r → shapeCheckInt32 r = .error .shape)
    ∧ (r < 2 ^ 31 → shapeCheckInt32 r = shapeCheck r) := by
  have hiff : ∀ nmax : Int, shapeCheckInt32 r = .ok nmax
      ↔ 0 ≤ nmax ∧ (r : Int) = (nmax + 1) ^ 2 ∧ r < 2 ^ 31 := by
    intro nmax
    by_cases h : r < 2 ^ 31
    · rw [shapeCheckInt32_eq r h, shapeCheck_ok_iff]
      exact ⟨fun ⟨a, b⟩ => ⟨a, b, h⟩, fun ⟨a, b, _⟩ => ⟨a, b⟩⟩
    · rw [shapeCheckInt32_large r (by omega)]
      exact ⟨fun e => (by cases e), fun ⟨_, _, c⟩ => absurd c h⟩
  refine ⟨hiff, ?_, ?_, shapeCheckInt32_large r, shapeCheckInt32_eq r⟩
  · by_cases h : ∃ N : Nat, r = (N + 1) ^ 2 ∧ r < 2 ^ 31
    · obtain ⟨N, hN, hlt⟩ := h
      refine Or.inl ⟨N, hN, hlt, ?_⟩
      rw [hiff]
      refine ⟨by omega, ?_, hlt⟩
      rw [hN]
      push_cast
      ring
    · refine Or.inr ⟨h, ?_⟩
      cases hs : shapeCheckInt32 r with
      | ok nmax =>
        exfalso
        obtain ⟨h0, hr, hlt⟩ := (hiff nmax).1 hs
        apply h
        refine ⟨nmax.toNat, ?_, hlt⟩
        have : (r : Int) = (((nmax.toNat + 1) ^ 2 : Nat) : Int) := by
          rw [hr]; push_cast; rw [Int.toNat_of_nonneg h0]
        exact_mod_cast this
      | error e =>
        unfold shapeCheckInt32 at hs
        simp only [] at hs
        split at hs
        · cases hs; exact Or.inl rfl
        · split at hs
          · cases hs; exact Or.inr rfl
          · cases hs
  · rw [shapeCheckInt32_eq 0 (by norm_num)]
    unfold shapeCheck nmaxOf
    simp

end CachedCoAxialRecurrence

namespace RotationCoefficients

/-- Claim C6: whenever `|m| > n` or `|mu| > n`, `operator()(n, m, mu)` returns zero, for any
angles and any cache, and leaves the cache as it found it. -/
theorem coefficient_zero_out_of_range {R C : Type} [Field R] [Field C]
    (E : RotationCoefficients R C) (n : Nat) (m mu : Int) (cache : Cache C)
    (h : (n : Int) < |m| ∨ (n : Int) < |mu|) :
    coefficient E n m mu cache = .ok (0, cache) :=
  coefficient_out_of_range E n m mu cache h

/-- Witness for C6: degree `1` and order `mu = -2`, on a cache that holds one entry. -/
theorem coefficient_zero_out_of_range_witness :
    coefficient
        (⟨⟨Real.sqrt, Real.cos, Real.sin, fun x => Complex.exp (x * Complex.I),
            fun x => (x : ℂ), fun z => (starRingEnd ℂ) z⟩, 1, 2, 3,
          fun _ mu => if mu = 0 then 1 else 0⟩ : RotationCoefficients ℝ ℂ)
        1 0 (-2) (Cache.insert Cache.empty (0, 0, 0) 1)
      = .ok (0, Cache.insert Cache.empty (0, 0, 0) 1) :=
  coefficient_zero_out_of_range _ 1 0 (-2) _ (Or.inr (by decide))

/-- Claim C8 as stated fails: with real and complex numerics, zero Euler angles and
`initial(n, mu)` equal to `1` at `mu = 0` and `0` elsewhere, `operator()(1, 1, 1)` on the
empty cache returns `-1`, not `1`. -/
theorem identity_rotation_counterexample :
    (∃ d,
      coefficient
          (⟨⟨Real.sqrt, Real.cos, Real.sin, fun x => Complex.exp (x * Complex.I),
              fun x => (x : ℂ), fun z => (starRingEnd ℂ) z⟩, 0, 0, 0,
            fun _ mu => if mu = 0 then 1 else 0⟩ : RotationCoefficients ℝ ℂ)
          1 1 1 Cache.empty = .ok (-1, d))
    ∧ ¬ ∃ d,
      coefficient
          (⟨⟨Real.sqrt, Real.cos, Real.sin, fun x => Complex.exp (x * Complex.I),
              fun x => (x : ℂ), fun z => (starRingEnd ℂ) z⟩, 0, 0, 0,
            fun _ mu => if mu = 0 then 1 else 0⟩ : RotationCoefficients ℝ ℂ)
          1 1 1 Cache.empty = .ok (1, d) := by
  have hv := value_zero_angles
    (⟨⟨Real.sqrt, Real.cos, Real.sin, fun x => Complex.exp (x * Complex.I),
        fun x => (x : ℂ), fun z => (starRingEnd ℂ) z⟩, 0, 0, 0,
      fun _ mu => if mu = 0 then 1 else 0⟩ : RotationCoefficients ℝ ℂ)
    real_numerics_exact rfl rfl rfl (fun _ _ => rfl) 1 1 1 (by decide) (by decide) (by decide)
  obtain ⟨d, e⟩ := coefficient_reachable
    (⟨⟨Real.sqrt, Real.cos, Real.sin, fun x => Complex.exp (x * Complex.I),
        fun x => (x : ℂ), fun z => (starRingEnd ℂ) z⟩, 0, 0, 0,
      fun _ mu => if mu = 0 then 1 else 0⟩ : RotationCoefficients ℝ ℂ)
    1 1 1 Cache.empty Reachable.empty
  rw [hv] at e
  have e1 : (if (1 : Int) = 1 then ((-1 : ℂ)) ^ (1 : Int).natAbs else 0) = -1 := by simp
  rw [e1] at e
  refine ⟨⟨d, e⟩, ?_⟩
  rintro ⟨d', e'⟩
  rw [e] at e'
  have h : (-1 : ℂ) = 1 := by
    have := congrArg (fun r => match r with | Except.ok p => p.1 | Except.error _ => (0 : ℂ)) e'
    simpa using this
  norm_num at h

/-- Claim C8, amended: in exact arithmetic, with all three Euler angles zero and
`initial(n, mu)` equal to `1` at `mu = 0` and `0` elsewhere, for `|m| ≤ n`, `|mu| ≤ n` and
degrees that fit `t_uint`, on a cache the engine can hold `operator()(n, m, mu)` returns
`(-1)^|m|` when `m = mu` and `0` otherwise. -/
theorem identity_rotation_signed {R C : Type} [LinearOrderedField R] [Field C]
    (E : RotationCoefficients R C) (hE : E.num.Exact)
    (ht : E.theta = 0) (hp : E.phi = 0) (hx : E.chi = 0)
    (hinit : ∀ (n : Nat) (mu : Int), E.initial n mu = if mu = 0 then 1 else 0)
    (n : Nat) (m mu : Int) (hm : |m| ≤ (n : Int)) (hmu : |mu| ≤ (n : Int))
    (hfit : n + m.natAbs + 1 < 2 ^ 64) (c : Cache C) (hc : Reachable E c) :
    ∃ d, coefficient E n m mu c = .ok (if m = mu then (-1) ^ m.natAbs else 0, d) := by
  obtain ⟨d, e⟩ := coefficient_reachable E n m mu c hc
  rw [value_zero_angles E hE ht hp hx hinit n m mu hm hmu hfit] at e
  exact ⟨d, e⟩

/-- Witness for C8: real and complex numerics at `(n, m, mu) = (3, -2, -2)`. -/
theorem identity_rotation_signed_witness :
    ∃ d,
      coefficient
          (⟨⟨Real.sqrt, Real.cos, Real.sin, fun x => Complex.exp (x * Complex.I),
              fun x => (x : ℂ), fun z => (starRingEnd ℂ) z⟩, 0, 0, 0,
            fun _ mu => if mu = 0 then 1 else 0⟩ : RotationCoefficients ℝ ℂ)
          3 (-2) (-2) Cache.empty
        = .ok (if (-2 : Int) = -2 then (-1) ^ (-2 : Int).natAbs else 0, d) :=
  identity_rotation_signed _ real_numerics_exact rfl rfl rfl (fun _ _ => rfl) 3 (-2) (-2)
    (by decide) (by decide) (by decide) Cache.empty Reachable.empty

/-- Claim C9: for `1 ≤ m ≤ n` and `|mu| ≤ n`, on caches the engine can hold,
`operator()(n, m, mu)` returns `c0 * v0 + c1 * v1 + c2 * v2`, where `v0`, `v1`, `v2` are
what `operator()` returns at `(n + 1, m - 1, mu + 1)`, `(n + 1, m - 1, mu - 1)` and
`(n + 1, m - 1, mu)`, and with `f = exp(i chi) / b(n + 1, m - 1)`:
`c0 = f (1/2) b(n + 1, -mu - 1) exp(i phi) (1 - cos theta)`,
`c1 = -f (1/2) b(n + 1, mu - 1) exp(-i phi) (1 + cos theta)`,
`c2 = -f a(n, mu) sin theta`; and for `m = 0` it returns `initial(n, mu)`. -/
theorem coefficient_recurrence {R C : Type} [Field R] [Field C]
    (E : RotationCoefficients R C) (n : Nat) (m mu : Int) (hmu : |mu| ≤ (n : Int))
    (c c0 c1 c2 : Cache C) (hc : Reachable E c) (hc0 : Reachable E c0)
    (hc1 : Reachable E c1) (hc2 : Reachable E c2) :
    (1 ≤ m → m ≤ (n : Int) →
      ∃ v v0 v1 v2 d d0 d1 d2,
        coefficient E n m mu c = .ok (v, d)
        ∧ coefficient E (n + 1) (m - 1) (mu + 1) c0 = .ok (v0, d0)
        ∧ coefficient E (n + 1) (m - 1) (mu - 1) c1 = .ok (v1, d1)
        ∧ coefficient E (n + 1) (m - 1) mu c2 = .ok (v2, d2)
        ∧ v =
          (E.num.expI E.chi / E.num.ofReal (b E.num (n + 1) (m - 1)) * E.num.ofReal (1 / 2) *
                E.num.ofReal (b E.num (n + 1) (-mu - 1)) * E.num.expI E.phi *
              E.num.ofReal (1 - E.num.cos E.theta)) * v0
          + (-(E.num.expI E.chi / E.num.ofReal (b E.num (n + 1) (m - 1))) *
                  E.num.ofReal (1 / 2) * E.num.ofReal (b E.num (n + 1) (mu - 1)) *
                E.num.expI (-E.phi) *
              E.num.ofReal (1 + E.num.cos E.theta)) * v1
          + (-(E.num.expI E.chi / E.num.ofReal (b E.num (n + 1) (m - 1))) *
                E.num.ofReal (a E.num n mu) * E.num.ofReal (E.num.sin E.theta)) * v2)
    ∧ (m = 0 → ∃ d, coefficient E n m mu c = .ok (E.initial n mu, d)) := by
  constructor
  · intro hm1 hmn
    obtain ⟨d, e⟩ := coefficient_reachable E n m mu c hc
    obtain ⟨d0, e0⟩ := coefficient_reachable E (n + 1) (m - 1) (mu + 1) c0 hc0
    obtain ⟨d1, e1⟩ := coefficient_reachable E (n + 1) (m - 1) (mu - 1) c1 hc1
    obtain ⟨d2, e2⟩ := coefficient_reachable E (n + 1) (m - 1) mu c2 hc2
    refine ⟨_, _, _, _, d, d0, d1, d2, e, e0, e1, e2, ?_⟩
    rw [value_step E n m mu hm1 hmn hmu]
    rfl
  · intro h0
    subst h0
    obtain ⟨d, e⟩ := coefficient_reachable E n 0 mu c hc
    rw [value_zero E n mu hmu] at e
    exact ⟨d, e⟩

/-- Witness for C9: real and complex numerics, angles `1, 2, 3`, at
`(n, m, mu) = (2, 1, -1)`, every call on the empty cache. -/
theorem coefficient_recurrence_witness :
    let E : RotationCoefficients ℝ ℂ :=
      ⟨⟨Real.sqrt, Real.cos, Real.sin, fun x => Complex.exp (x * Complex.I),
        fun x => (x : ℂ), fun z => (starRingEnd ℂ) z⟩, 1, 2, 3,
      fun _ mu => if mu = 0 then 1 else 0⟩
    ∃ v v0 v1 v2 d d0 d1 d2,
      coefficient E 2 1 (-1) Cache.empty = .ok (v, d)
      ∧ coefficient E (2 + 1) (1 - 1) (-1 + 1) Cache.empty = .ok (v0, d0)
      ∧ coefficient E (2 + 1) (1 - 1) (-1 - 1) Cache.empty = .ok (v1, d1)
      ∧ coefficient E (2 + 1) (1 - 1) (-1) Cache.empty = .ok (v2, d2)
      ∧ v =
        (E.num.expI E.chi / E.num.ofReal (b E.num (2 + 1) (1 - 1)) * E.num.ofReal (1 / 2) *
              E.num.ofReal (b E.num (2 + 1) (-(-1) - 1)) * E.num.expI E.phi *
            E.num.ofReal (1 - E.num.cos E.theta)) * v0
        + (-(E.num.expI E.chi / E.num.ofReal (b E.num (2 + 1) (1 - 1))) *
                E.num.ofReal (1 / 2) * E.num.ofReal (b E.num (2 + 1) (-1 - 1)) *
              E.num.expI (-E.phi) *
            E.num.ofReal (1 + E.num.cos E.theta)) * v1
        + (-(E.num.expI E.chi / E.num.ofReal (b E.num (2 + 1) (1 - 1))) *
              E.num.ofReal (a E.num 2 (-1)) * E.num.ofReal (E.num.sin E.theta)) * v2 := by
  intro E
  exact (coefficient_recurrence E 2 1 (-1) (by decide) Cache.empty Cache.empty Cache.empty
    Cache.empty Reachable.empty Reachable.empty Reachable.empty Reachable.empty).1
    (by decide) (by decide)

end RotationCoefficients

namespace CachedCoAxialRecurrence

/-- Claim C10: for every degree `N` and every loop body, the body only ever runs with the
counter `i` equal to `n * n + n + m`; the assertion `i == index(n, m)` can be added to or
removed from any body without changing the run, so it never fails in the engine's apply;
and the functor, which reads `input.row(i)`, reads the row `index(n, m)` the engine
reads. -/
theorem local_index_eq_flat_index (N : Int) :
    (∀ (σ : Type) (body : Int → Int → Int → Int → σ → Except Fault σ) (s : σ),
      harmonicsLoop N body s
        = harmonicsLoop N (fun _ n m l => body (n * n + n + m) n m l) s)
    ∧ (∀ (σ : Type) (body : Int → Int → Int → Int → σ → Except Fault σ) (s : σ),
      harmonicsLoop N
          (fun i n m l s => if i ≠ index n m then .error .indexMismatch else body i n m l s) s
        = harmonicsLoop N body s)
    ∧ (∀ (K : Type) [Zero K] [Add K] [Mul K] (coeff : Int → Int → Int → K) (out input : Mat K),
      apply coeff out input ≠ .error .indexMismatch)
    ∧ (∀ (K : Type) [Add K] [Mul K] (input : Mat K) (st : List K × Mat K),
      harmonicsLoop N (Functor.applyBody input) st
        = harmonicsLoop N (fun _ n m l => Functor.applyBody input (index n m) n m l) st) := by
  refine ⟨fun σ body s => harmonicsLoop_counter N body s,
    fun σ body s => harmonicsLoop_assert N body s,
    fun K _ _ _ coeff out input => apply_ne_indexMismatch coeff out input, ?_⟩
  intro K _ _ input st
  rw [harmonicsLoop_eq_foldlM, harmonicsLoop_eq_foldlM]
  apply foldlM_congr_mem
  intro v hv acc
  obtain ⟨n, m, l, _, hm, _, rfl⟩ := mem_visits.1 hv
  simp only [index_eq (abs_le.2 hm)]

end CachedCoAxialRecurrence

/-! ## Shapes, linearity, budgets and the auxiliary functions -/

namespace CachedCoAxialRecurrence

/-- Every index below `(N + 1)^2` is the flat index of a pair `(n, m)` with `n ≤ N` and
`|m| ≤ n`. -/
theorem flat_index_surj (N k : Int) (hN : 0 ≤ N) (h0 : 0 ≤ k)
    (hk : k < (N + 1) * (N + 1)) :
    ∃ n m : Int, 0 ≤ n ∧ n ≤ N ∧ -n ≤ m ∧ m ≤ n ∧ n * n + n + m = k := by
  have hs1 : Nat.sqrt k.toNat * Nat.sqrt k.toNat ≤ k.toNat := Nat.sqrt_le _
  have hs2 : k.toNat < (Nat.sqrt k.toNat + 1) * (Nat.sqrt k.toNat + 1) := Nat.lt_succ_sqrt _
  have hkk : ((k.toNat : Nat) : Int) = k := Int.toNat_of_nonneg h0
  have h1 : ((Nat.sqrt k.toNat : Nat) : Int) * (Nat.sqrt k.toNat : Nat) ≤ k := by
    rw [← hkk]; exact_mod_cast hs1
  have h2 : k < (((Nat.sqrt k.toNat : Nat) : Int) + 1) * (((Nat.sqrt k.toNat : Nat) : Int) + 1) := by
    rw [← hkk]; exact_mod_cast hs2
  have hs0 : (0 : Int) ≤ (Nat.sqrt k.toNat : Nat) := Int.natCast_nonneg _
  refine ⟨(Nat.sqrt k.toNat : Nat), k - (Nat.sqrt k.toNat : Nat) * (Nat.sqrt k.toNat : Nat)
    - (Nat.sqrt k.toNat : Nat), hs0, ?_, ?_, ?_, ?_⟩
  · by_contra hlt
    have hlt : N + 1 ≤ (Nat.sqrt k.toNat : Nat) := by omega
    nlinarith
  · nlinarith
  · nlinarith
  · ring

end CachedCoAxialRecurrence

namespace CachedCoAxialRecurrence

variable {K : Type}

end CachedCoAxialRecurrence

namespace RotationCoefficients

variable {R C : Type} [Field R] [Field C]

/-- A stored entry holds the value of the recurrence at its key. -/
theorem cacheOK_value (E : RotationCoefficients R C) (c : Cache C) (hc : CacheOK E c)
    (n : Nat) (m mu : Int) (v : C) (h : c (n, m, mu) = some v) : v = value E n m mu := by
  obtain ⟨h0, h1, h2, h3⟩ := hc n m mu v h
  rw [value, if_neg (by omega), if_neg (by omega), h3]

/-- The first request of a coefficient of order `0` on the empty cache. -/
theorem coefficient_order_zero_empty (E : RotationCoefficients R C) (n : Nat) (mu : Int)
    (hmu : mu.natAbs ≤ n) :
    coefficient E n 0 mu Cache.empty
      = .ok (E.initial n mu, Cache.insert Cache.empty (n, 0, mu) (E.initial n mu)) := by
  rw [coefficient]
  have h : ¬ ((0 : Int).natAbs > n ∨ mu.natAbs > n) := by
    simp only [Int.natAbs_zero]; omega
  rw [if_neg h, if_neg (by decide)]
  simp only [Cache.empty, if_true, Except.bind_ok_eq]

/-- For an order `m ≥ 0`, a depth budget above `m` and a degree budget of at least `n + m`
are enough: the budgeted run is the run of `operator()`, on any cache. -/
theorem coefficientWithin_nonneg (E : RotationCoefficients R C) (m : Nat) :
    ∀ (n : Nat) (mu : Int) (cache : Cache C) (degree depth : Nat),
      n + m ≤ degree → m + 1 ≤ depth →
      coefficientWithin E degree depth n (m : Int) mu cache
        = some (coefficient E n (m : Int) mu cache) := by
  induction m with
  | zero =>
    intro n mu cache degree depth hdeg hdep
    obtain ⟨d, rfl⟩ : ∃ d, depth = d + 1 := ⟨depth - 1, by omega⟩
    rw [coefficientWithin, coefficient, if_neg (by omega)]
    by_cases hr : (0 : Int).natAbs > n ∨ mu.natAbs > n
    · simp only [Nat.cast_zero]
      rw [if_pos hr, if_pos hr]
    · simp only [Nat.cast_zero]
      rw [if_neg hr, if_neg hr]
      simp only [lt_self_iff_false, if_false]
      cases hfind : cache (n, 0, mu) with
      | some prior => rfl
      | none => rfl
  | succ m ih =>
    intro n mu cache degree depth hdeg hdep
    obtain ⟨d, rfl⟩ : ∃ d, depth = d + 1 := ⟨depth - 1, by omega⟩
    rw [coefficientWithin, coefficient, if_neg (by omega)]
    by_cases hr : (((m + 1 : Nat) : Int)).natAbs > n ∨ mu.natAbs > n
    · rw [if_pos hr, if_pos hr]
    · have hneg : ¬ (((m + 1 : Nat) : Int) < 0) := by omega
      have hne : ¬ (((m + 1 : Nat) : Int) = 0) := by omega
      rw [if_neg hr, if_neg hr, if_neg hneg, if_neg hneg]
      cases hfind : cache (n, ((m + 1 : Nat) : Int), mu) with
      | some prior => rfl
      | none =>
        have hn1 : n ≥ 1 := by omega
        have hm : ((m + 1 : Nat) : Int) - 1 = (m : Int) := by omega
        simp only [if_neg hne, hn1, not_true_eq_false, if_false]
        rw [recursion]
        simp only [hn1, not_true_eq_false, if_false, hm]
        rw [ih (n + 1) (mu + 1) cache degree d (by omega) (by omega)]
        cases h0 : coefficient E (n + 1) (m : Int) (mu + 1) cache with
        | error e => rfl
        | ok r0 =>
          simp only [Except.bind_ok_eq]
          rw [ih (n + 1) (mu - 1) r0.2 degree d (by omega) (by omega)]
          cases h1 : coefficient E (n + 1) (m : Int) (mu - 1) r0.2 with
          | error e => rfl
          | ok r1 =>
            simp only [Except.bind_ok_eq]
            rw [ih (n + 1) mu r1.2 degree d (by omega) (by omega)]
            cases h2 : coefficient E (n + 1) (m : Int) mu r1.2 with
            | error e => rfl
            | ok r2 => rfl

/-- The budgets that are enough for any order. -/
theorem coefficientWithin_eq (E : RotationCoefficients R C) (n : Nat) (m mu : Int)
    (cache : Cache C) :
    coefficientWithin E (n + m.natAbs) (m.natAbs + (if m < 0 then 2 else 1)) n m mu cache
      = some (coefficient E n m mu cache) := by
  by_cases hneg : m < 0
  · rw [if_pos hneg, coefficientWithin, coefficient, if_neg (by omega)]
    by_cases hr : m.natAbs > n ∨ mu.natAbs > n
    · rw [if_pos hr, if_pos hr]
    · rw [if_neg hr, if_neg hr, if_pos hneg, if_pos hneg]
      have hcast : -m = ((m.natAbs : Nat) : Int) := by omega
      rw [hcast, coefficientWithin_nonneg E m.natAbs n (-mu) cache _ _ (le_refl _) (le_refl _)]
      rfl
  · rw [if_neg hneg]
    have hcast : m = ((m.natAbs : Nat) : Int) := by omega
    have h := coefficientWithin_nonneg E m.natAbs n mu cache (n + m.natAbs) (m.natAbs + 1)
      (le_refl _) (le_refl _)
    rw [← hcast] at h
    exact h

/-- On any cache, `operator()` returns: no assertion fails. -/
theorem coefficient_nonneg_ok (E : RotationCoefficients R C) (m : Nat) :
    ∀ (n : Nat) (mu : Int) (cache : Cache C),
      ∃ r, coefficient E n (m : Int) mu cache = .ok r := by
  induction m with
  | zero =>
    intro n mu cache
    rw [coefficient]
    by_cases hr : (0 : Int).natAbs > n ∨ mu.natAbs > n
    · simp only [Nat.cast_zero]
      rw [if_pos hr]
      exact ⟨_, rfl⟩
    · simp only [Nat.cast_zero]
      rw [if_neg hr]
      simp only [lt_self_iff_false, if_false]
      cases hfind : cache (n, 0, mu) with
      | some prior => exact ⟨_, rfl⟩
      | none => exact ⟨_, rfl⟩
  | succ m ih =>
    intro n mu cache
    rw [coefficient]
    by_cases hr : (((m + 1 : Nat) : Int)).natAbs > n ∨ mu.natAbs > n
    · rw [if_pos hr]
      exact ⟨_, rfl⟩
    · have hneg : ¬ (((m + 1 : Nat) : Int) < 0) := by omega
      have hne : ¬ (((m + 1 : Nat) : Int) = 0) := by omega
      rw [if_neg hr, if_neg hneg]
      cases hfind : cache (n, ((m + 1 : Nat) : Int), mu) with
      | some prior => exact ⟨_, rfl⟩
      | none =>
        have hn1 : n ≥ 1 := by omega
        have hm : ((m + 1 : Nat) : Int) - 1 = (m : Int) := by omega
        simp only [if_neg hne]
        rw [recursion]
        simp only [hn1, not_true_eq_false, if_false, hm]
        obtain ⟨r0, e0⟩ := ih (n + 1) (mu + 1) cache
        obtain ⟨r1, e1⟩ := ih (n + 1) (mu - 1) r0.2
        obtain ⟨r2, e2⟩ := ih (n + 1) mu r1.2
        rw [e0, Except.bind_ok_eq, e1, Except.bind_ok_eq, e2, Except.bind_ok_eq,
          Except.bind_ok_eq]
        exact ⟨_, rfl⟩

theorem coefficient_ok (E : RotationCoefficients R C) (n : Nat) (m mu : Int)
    (cache : Cache C) : ∃ r, coefficient E n m mu cache = .ok r := by
  by_cases hneg : m < 0
  · rw [coefficient]
    by_cases hr : m.natAbs > n ∨ mu.natAbs > n
    · rw [if_pos hr]
      exact ⟨_, rfl⟩
    · rw [if_neg hr, if_pos hneg]
      have hcast : -m = ((m.natAbs : Nat) : Int) := by omega
      obtain ⟨r, e⟩ := coefficient_nonneg_ok E m.natAbs n (-mu) cache
      rw [hcast, e, Except.bind_ok_eq]
      exact ⟨_, rfl⟩
  · have hcast : m = ((m.natAbs : Nat) : Int) := by omega
    rw [hcast]
    exact coefficient_nonneg_ok E m.natAbs n mu cache

end RotationCoefficients

/-- A `t_uint` expression whose integer value lies in `0 .. 2^64 - 1` has that value. -/
theorem u64_of_lt (z : Int) (h0 : 0 ≤ z) (h : z < 2 ^ 64) : ((u64 z : Nat) : Int) = z := by
  unfold u64
  omega

theorem u64_cast_of_lt {R : Type} [LinearOrderedField R] (z : Int) (h0 : 0 ≤ z)
    (h : z < 2 ^ 64) : ((u64 z : Nat) : R) = ((z : Int) : R) := by
  rw [← u64_of_lt z h0 h, Int.cast_natCast, u64_of_lt z h0 h]

theorem sqrt_pos_of_exact {R C : Type} [LinearOrderedField R] (P : Numerics R C)
    (hP : P.SqrtExact) (x : R) (hx : 0 < x) : 0 < P.sqrt x := by
  rcases lt_or_eq_of_le (hP.sqrt_nonneg x) with h | h
  · exact h
  · exfalso
    have := hP.mul_self_sqrt x (le_of_lt hx)
    rw [← h, mul_zero] at this
    exact (ne_of_gt hx) this.symm

namespace RotationCoefficients

variable {R C : Type} [LinearOrderedField R]

theorem b_out_of_range (P : Numerics R C) (n : Nat) (m : Int) (h : (n : Int) < |m|) :
    b P n m = 0 := by
  rw [Int.abs_eq_natAbs] at h
  unfold b
  rw [if_pos (by omega)]

theorem b_nonneg (P : Numerics R C) (hP : P.SqrtExact) (n : Nat) (m : Int) (h0 : 0 ≤ m) :
    0 ≤ b P n m := by
  unfold b
  split
  · exact le_refl 0
  · first
      | rw [if_pos h0, one_mul]
      | rw [one_mul]
    exact hP.sqrt_nonneg _

theorem b_neg (P : Numerics R C) (hP : P.SqrtExact) (n : Nat) (m : Int)
    (hm : |m| ≤ (n : Int)) (hneg : m < 0) (hfit : n + m.natAbs < 2 ^ 64) : b P n m < 0 := by
  rw [Int.abs_eq_natAbs] at hm
  unfold b
  rw [if_neg (by omega), if_neg (by omega)]
  have hpos : 0 < P.sqrt
      (((u64 (((n : Int) - m - 1) * ((n : Int) - m)) : Nat) : R) /
        ((u64 ((2 * (n : Int) - 1) * (2 * (n : Int) + 1)) : Nat) : R)) := by
    apply sqrt_pos_of_exact P hP
    have e1 : ((n : Int) - m - 1) * ((n : Int) - m)
        = (((n + m.natAbs - 1) * (n + m.natAbs - 1 + 1) : Nat) : Int) := by
      have h1 : 1 ≤ n + m.natAbs := by omega
      have h2 : |m| = -m := abs_of_neg hneg
      push_cast [Nat.cast_sub h1]
      rw [h2]
      ring
    have e2 : (2 * (n : Int) - 1) * (2 * (n : Int) + 1)
        = (((2 * n - 1) * (2 * n + 1) : Nat) : Int) := by
      have h1 : 1 ≤ 2 * n := by omega
      push_cast [Nat.cast_sub h1]
      ring
    rw [e1, e2, u64_natCast, u64_natCast]
    apply div_pos
    · have := consecutive_mod_ne_zero (n + m.natAbs - 1) (by omega) (by omega)
      exact Nat.cast_pos.2 (Nat.pos_of_ne_zero this)
    · have hodd : ((2 * n - 1) * (2 * n + 1)) % 2 = 1 := by
        rw [Nat.mul_mod]
        have h1 : (2 * n - 1) % 2 = 1 := by omega
        have h2 : (2 * n + 1) % 2 = 1 := by omega
        rw [h1, h2]
      exact Nat.cast_pos.2 (Nat.pos_of_ne_zero (odd_mod_ne_zero _ hodd))
  linarith

theorem b_mul_self (P : Numerics R C) (hP : P.SqrtExact) (n : Nat) (m : Int)
    (hm : |m| ≤ (n : Int)) (hn1 : 1 ≤ n) (hn : n ≤ 2 ^ 31) :
    b P n m * b P n m
      = (((n : R) - (m : R) - 1) * ((n : R) - (m : R))) /
          ((2 * (n : R) - 1) * (2 * (n : R) + 1)) := by
  obtain ⟨hm1, hm2⟩ := abs_le.1 hm
  rw [Int.abs_eq_natAbs] at hm
  have hnI : (n : Int) ≤ 2 ^ 31 := by exact_mod_cast hn
  have hn1I : (1 : Int) ≤ n := by exact_mod_cast hn1
  have hnum0 : 0 ≤ ((n : Int) - m - 1) * ((n : Int) - m) := by
    rcases eq_or_lt_of_le hm2 with h | h
    · rw [h]; simp
    · exact mul_nonneg (by omega) (by omega)
  have hnum : ((n : Int) - m - 1) * ((n : Int) - m) < 2 ^ 64 := by nlinarith
  have hden0 : 0 ≤ (2 * (n : Int) - 1) * (2 * (n : Int) + 1) :=
    mul_nonneg (by omega) (by omega)
  have hden : (2 * (n : Int) - 1) * (2 * (n : Int) + 1) < 2 ^ 64 := by nlinarith
  unfold b
  rw [if_neg (by omega), u64_cast_of_lt _ hnum0 hnum, u64_cast_of_lt _ hden0 hden]
  have hr : (0 : R) ≤ ((((n : Int) - m - 1) * ((n : Int) - m) : Int) : R) /
      ((((2 * (n : Int) - 1) * (2 * (n : Int) + 1) : Int)) : R) :=
    div_nonneg (by exact_mod_cast hnum0) (by exact_mod_cast hden0)
  have hs := hP.mul_self_sqrt _ hr
  have hsign : ∀ s : R, (s = 1 ∨ s = -1) → ∀ t : R, (s * t) * (s * t) = t * t := by
    intro s hs' t
    rcases hs' with h | h <;> rw [h] <;> ring
  rw [hsign _ (by split <;> simp), hs]
  push_cast
  ring

theorem a_neg_order (P : Numerics R C) (n : Nat) (m : Int) : a P n m = a P n (-m) := by
  unfold a
  rw [Int.natAbs_neg]

theorem a_out_of_range (P : Numerics R C) (n : Nat) (m : Int) (h : (n : Int) < |m|) :
    a P n m = 0 := by
  rw [Int.abs_eq_natAbs] at h
  unfold a
  simp only []
  rw [if_pos (by omega)]

theorem a_eq_sqrt (P : Numerics R C) (n : Nat) (m : Int) (hm : |m| ≤ (n : Int))
    (hn : n < 2 ^ 31) :
    a P n m = P.sqrt ((((n : R) + 1 + ((|m| : Int) : R)) * ((n : R) + 1 - ((|m| : Int) : R))) /
        ((2 * (n : R) + 1) * (2 * (n : R) + 3)))
      ∧ 0 < (((n : R) + 1 + ((|m| : Int) : R)) * ((n : R) + 1 - ((|m| : Int) : R))) /
        ((2 * (n : R) + 1) * (2 * (n : R) + 3)) := by
  rw [Int.abs_eq_natAbs] at hm ⊢
  have hnI : (n : Int) < 2 ^ 31 := by exact_mod_cast hn
  have hmI : ((m.natAbs : Nat) : Int) ≤ n := hm
  have hm0 : (0 : Int) ≤ ((m.natAbs : Nat) : Int) := Int.natCast_nonneg _
  have hnum0 : 0 < ((n : Int) + 1 + (m.natAbs : Int)) * ((n : Int) + 1 - (m.natAbs : Int)) :=
    mul_pos (by omega) (by omega)
  have hnum : ((n : Int) + 1 + (m.natAbs : Int)) * ((n : Int) + 1 - (m.natAbs : Int)) < 2 ^ 64 := by
    nlinarith
  have hden0 : 0 < (2 * (n : Int) + 1) * (2 * (n : Int) + 3) := mul_pos (by omega) (by omega)
  have hden : (2 * (n : Int) + 1) * (2 * (n : Int) + 3) < 2 ^ 64 := by nlinarith
  have e : (((n : R) + 1 + (((m.natAbs : Nat) : Int) : R)) * ((n : R) + 1 - (((m.natAbs : Nat) : Int) : R))) /
        ((2 * (n : R) + 1) * (2 * (n : R) + 3))
      = ((((n : Int) + 1 + (m.natAbs : Int)) * ((n : Int) + 1 - (m.natAbs : Int)) : Int) : R) /
        ((((2 * (n : Int) + 1) * (2 * (n : Int) + 3)) : Int) : R) := by
    push_cast
    ring
  constructor
  · unfold a
    simp only []
    rw [if_neg (by omega), u64_cast_of_lt _ (le_of_lt hnum0) hnum,
      u64_cast_of_lt _ (le_of_lt hden0) hden, e]
  · rw [e]
    exact div_pos (by exact_mod_cast hnum0) (by exact_mod_cast hden0)

end RotationCoefficients

namespace RotationCoefficients

theorem real_numerics_sqrtExact :
    (⟨Real.sqrt, Real.cos, Real.sin, fun x => Complex.exp (x * Complex.I), fun x => (x : ℂ),
      fun z => (starRingEnd ℂ) z⟩ : Numerics ℝ ℂ).SqrtExact where
  sqrt_nonneg := Real.sqrt_nonneg
  mul_self_sqrt := fun _ h => Real.mul_self_sqrt h

end RotationCoefficients

/-! ## The claims on indices, caching, shapes, linearity, termination and `a`, `b` -/

namespace CachedCoAxialRecurrence

/-- Claim C11: for every degree `N`, the flat index `(n, m) ↦ n * n + n + m`, which is what
`index(n, m)` computes on these pairs, is a bijection from the pairs with `0 ≤ n ≤ N` and
`-n ≤ m ≤ n` onto the integers `0, ..., (N + 1)^2 - 1`; so every row `l * (l + 1) + m` with
`|m| ≤ l ≤ N` lies within a container of `(N + 1)^2` rows. -/
theorem flat_index_bijection (N : Nat) :
    Set.BijOn (fun p : Int × Int => index p.1 p.2)
        {p : Int × Int | 0 ≤ p.1 ∧ p.1 ≤ N ∧ -p.1 ≤ p.2 ∧ p.2 ≤ p.1}
        (Set.Ico 0 (((N : Int) + 1) ^ 2))
    ∧ (∀ p ∈ {p : Int × Int | 0 ≤ p.1 ∧ p.1 ≤ N ∧ -p.1 ≤ p.2 ∧ p.2 ≤ p.1},
        index p.1 p.2 = p.1 * p.1 + p.1 + p.2)
    ∧ (∀ p ∈ {p : Int × Int | |p.2| ≤ p.1 ∧ p.1 ≤ N},
        p.1 * (p.1 + 1) + p.2 ∈ Set.Ico 0 (((N : Int) + 1) ^ 2)) := by
  have hidx : ∀ p ∈ {p : Int × Int | 0 ≤ p.1 ∧ p.1 ≤ N ∧ -p.1 ≤ p.2 ∧ p.2 ≤ p.1},
      index p.1 p.2 = p.1 * p.1 + p.1 + p.2 := by
    rintro ⟨n, m⟩ ⟨_, _, h3, h4⟩
    exact index_eq (abs_le.2 ⟨h3, h4⟩)
  refine ⟨⟨?_, ?_, ?_⟩, hidx, ?_⟩
  · rintro ⟨n, m⟩ hp
    have hp' := hp
    obtain ⟨_, h2, h3, h4⟩ := hp'
    have hb := index_bounds (abs_le.2 ⟨h3, h4⟩) h2
    simp only [hidx (n, m) hp, Set.mem_Ico, pow_two]
    exact hb
  · rintro ⟨n, m⟩ hp ⟨n', m'⟩ hp' e
    simp only [hidx (n, m) hp, hidx (n', m') hp'] at e
    obtain ⟨_, _, h3, h4⟩ := hp
    obtain ⟨_, _, h3', h4'⟩ := hp'
    obtain ⟨e1, e2⟩ := flat_index_inj (abs_le.2 ⟨h3, h4⟩) (abs_le.2 ⟨h3', h4'⟩) e
    simp only at e1 e2
    rw [e1, e2]
  · intro k hk
    rw [Set.mem_Ico, pow_two] at hk
    obtain ⟨n, m, h0, h1, h2, h3, e⟩ := flat_index_surj N k (Int.natCast_nonneg N) hk.1 hk.2
    refine ⟨(n, m), ⟨h0, h1, h2, h3⟩, ?_⟩
    simp only [index_eq (abs_le.2 ⟨h2, h3⟩)]
    exact e
  · rintro ⟨l, m⟩ ⟨h1, h2⟩
    have hb := index_bounds h1 h2
    simp only [Set.mem_Ico, pow_two]
    have e : l * (l + 1) + m = l * l + l + m := by ring
    rw [e]
    exact hb

end CachedCoAxialRecurrence

namespace RotationCoefficients

variable {R C : Type} [Field R] [Field C]

/-- Claim C12: on a cache the engine can hold, a request returns the same value when it is
repeated on the cache it left, and the same value as on any other cache the engine can
hold; every stored entry is the value of the recurrence without the cache at its key,
which is also what the request returns on the empty cache; and a request leaves every
stored entry in place, unchanged. -/
theorem coefficient_cache_independent (E : RotationCoefficients R C) (c : Cache C)
    (hc : Reachable E c) :
    (∀ (n : Nat) (m mu : Int), ∃ v c' c'',
      coefficient E n m mu c = .ok (v, c') ∧ coefficient E n m mu c' = .ok (v, c''))
    ∧ (∀ (d : Cache C), Reachable E d → ∀ (n : Nat) (m mu : Int), ∃ v c' d',
      coefficient E n m mu c = .ok (v, c') ∧ coefficient E n m mu d = .ok (v, d'))
    ∧ (∀ (n : Nat) (m mu : Int) (v : C), c (n, m, mu) = some v →
      v = value E n m mu ∧ ∃ d, coefficient E n m mu Cache.empty = .ok (v, d))
    ∧ (∀ (n : Nat) (m mu : Int) (v : C) (c' : Cache C),
      coefficient E n m mu c = .ok (v, c') →
        ∀ (k : Nat × Int × Int) (w : C), c k = some w → c' k = some w) := by
  have hok := reachable_cacheOK E c hc
  refine ⟨?_, ?_, ?_, ?_⟩
  · intro n m mu
    obtain ⟨c', e, ok', _⟩ := coefficient_sound E n m mu c hok
    obtain ⟨c'', e', _, _⟩ := coefficient_sound E n m mu c' ok'
    exact ⟨_, c', c'', e, e'⟩
  · intro d hd n m mu
    obtain ⟨c', e⟩ := coefficient_reachable E n m mu c hc
    obtain ⟨d', e'⟩ := coefficient_reachable E n m mu d hd
    exact ⟨_, c', d', e, e'⟩
  · intro n m mu v h
    have hv := cacheOK_value E c hok n m mu v h
    obtain ⟨d, e⟩ := coefficient_reachable E n m mu Cache.empty Reachable.empty
    exact ⟨hv, d, hv ▸ e⟩
  · intro n m mu v c' h
    obtain ⟨d, e, _, ex⟩ := coefficient_sound E n m mu c hok
    rw [e] at h
    cases h
    exact ex

end RotationCoefficients

namespace RotationCoefficients

/-- Witness for C12: real and complex numerics, on the cache left by the request
`(1, 0, 0)`. -/
theorem coefficient_cache_independent_witness :
    let E : RotationCoefficients ℝ ℂ :=
      ⟨⟨Real.sqrt, Real.cos, Real.sin, fun x => Complex.exp (x * Complex.I),
        fun x => (x : ℂ), fun z => (starRingEnd ℂ) z⟩, 1, 2, 3,
      fun _ mu => if mu = 0 then 1 else 0⟩
    let c : Cache ℂ := Cache.insert Cache.empty (1, 0, 0) (E.initial 1 0)
    Reachable E c
      ∧ c (1, 0, 0) = some 1
      ∧ (1 : ℂ) = value E 1 0 0
      ∧ ∃ v c' c'', coefficient E 2 (-1) 1 c = .ok (v, c')
          ∧ coefficient E 2 (-1) 1 c' = .ok (v, c'') := by
  intro E c
  have hc : Reachable E c :=
    Reachable.call Cache.empty c 1 0 0 (E.initial 1 0) Reachable.empty
      (coefficient_order_zero_empty E 1 0 (by decide))
  have hstored : c (1, 0, 0) = some 1 := by
    simp [c, E, Cache.insert]
  have h := coefficient_cache_independent E c hc
  exact ⟨hc, hstored, (h.2.2.1 1 0 0 1 hstored).1, h.1 2 (-1) 1⟩

end RotationCoefficients

namespace CachedCoAxialRecurrence

variable {K : Type}

/-- Claim C15, the code at the failing input, `out` having the shape of the input: a column
of three rows, which is what the
documented layout `(1, -1), (1, 0), (1, 1)` gives for `nmax = 1`, fails the size
assertion; a column of four rows is accepted with `nmax = 1`, and its row `0` is used as
the element `(n, m) = (0, 0)`: with `coefficient(0, 0, 0) = 7`, `coefficient(1, 0, 0) = 8`
and the input rows `1, 2, 3, 4`, output row `0` is `7 * 1 + 8 * 3`. -/
theorem apply_first_row_is_monopole :
    apply (fun n m l => 7 + n + 10 * m + 100 * l) (Mat.zeros 3 1)
        (⟨3, 1, fun i _ => (i : Int) + 1⟩ : Mat Int) = .error .shape
    ∧ ∃ res, apply (fun n m l => 7 + n + 10 * m + 100 * l) (Mat.zeros 4 1)
          (⟨4, 1, fun i _ => (i : Int) + 1⟩ : Mat Int) = .ok res
        ∧ res.entry 0 0 = 7 * 1 + 8 * 3 := by
  constructor
  · have hs : Nat.sqrt 3 = 1 := (Nat.eq_sqrt.2 ⟨by decide, by decide⟩).symm
    have h3 : shapeCheck 3 = .error .shape := by
      unfold shapeCheck nmaxOf
      simp [hs]
    unfold apply
    dsimp only
    rw [Mat.resize_eq_ok (Mat.zeros 3 1) 3 1 ⟨rfl, rfl⟩, Except.bind_ok_eq, h3]
    rfl
  · refine ⟨_, (apply_eq_ok (fun n m l => (7 : Int) + n + 10 * m + 100 * l) (Mat.zeros 4 1)
      (⟨4, 1, fun i _ => (i : Int) + 1⟩ : Mat Int) ⟨rfl, rfl⟩ 1 rfl).1, ?_⟩
    have h := applyResult_entry (fun n m l => (7 : Int) + n + 10 * m + 100 * l)
      ((1 : Nat) : Int) (⟨4, 1, fun i _ => (i : Int) + 1⟩ : Mat Int) 0 0 (by decide)
      (by decide) 0
    simp only [mul_zero, add_zero, Int.toNat_zero] at h
    rw [h]
    rfl

end CachedCoAxialRecurrence

namespace RotationCoefficients

/-- The bound of C16 is attained: on the empty cache the request `(n, m, mu) = (1, -1, 0)`
nests the two requests `(1, 1, 0)` and `(2, 0, 1)` beneath it, `|m| + 1 = 2` of them; a
budget of two activations is not enough and one of three is. -/
theorem nesting_depth_attained :
    coefficientWithin
        (⟨⟨Real.sqrt, Real.cos, Real.sin, fun x => Complex.exp (x * Complex.I),
            fun x => (x : ℂ), fun z => (starRingEnd ℂ) z⟩, 1, 2, 3,
          fun _ mu => if mu = 0 then 1 else 0⟩ : RotationCoefficients ℝ ℂ)
        (1 + 1) (1 + 1) 1 (-1) 0 Cache.empty = none
    ∧ coefficientWithin
        (⟨⟨Real.sqrt, Real.cos, Real.sin, fun x => Complex.exp (x * Complex.I),
            fun x => (x : ℂ), fun z => (starRingEnd ℂ) z⟩, 1, 2, 3,
          fun _ mu => if mu = 0 then 1 else 0⟩ : RotationCoefficients ℝ ℂ)
        (1 + 1) (1 + 2) 1 (-1) 0 Cache.empty
      = some (coefficient
        (⟨⟨Real.sqrt, Real.cos, Real.sin, fun x => Complex.exp (x * Complex.I),
            fun x => (x : ℂ), fun z => (starRingEnd ℂ) z⟩, 1, 2, 3,
          fun _ mu => if mu = 0 then 1 else 0⟩ : RotationCoefficients ℝ ℂ)
        1 (-1) 0 Cache.empty) := by
  constructor
  · rfl
  · have h := fun E : RotationCoefficients ℝ ℂ => coefficientWithin_eq E 1 (-1) 0 Cache.empty
    exact h _

/-- The budgeted run with `|m| + 1` requests nested beneath the outermost one. -/
theorem coefficientWithin_nested {R C : Type} [Field R] [Field C]
    (E : RotationCoefficients R C) (n : Nat) (m mu : Int) (cache : Cache C) :
    coefficientWithin E (n + m.natAbs) (m.natAbs + 1 + 1) n m mu cache
      = some (coefficient E n m mu cache) := by
  by_cases hneg : m < 0
  · have h := coefficientWithin_eq E n m mu cache
    rw [if_pos hneg] at h
    exact h
  · have hcast : m = ((m.natAbs : Nat) : Int) := by omega
    have h := coefficientWithin_nonneg E m.natAbs n mu cache (n + m.natAbs) (m.natAbs + 1 + 1)
      (le_refl _) (by omega)
    rw [← hcast] at h
    exact h

/-- Claim C16: on any cache, evaluating `operator()(n, m, mu)` terminates and returns.
The run completes under the two budgets of `coefficientWithin`: at most `|m| + 1` requests
nested beneath the evaluated one (`|m| + 2` activations of `operator()` with the evaluated
one), and no coefficient of a degree above `n + |m|`.  For `m ≥ 0`, where there is no
redirect, `|m|` nested requests are enough. -/
theorem coefficient_terminates_within {R C : Type} [Field R] [Field C]
    (E : RotationCoefficients R C) (n : Nat) (m mu : Int) (cache : Cache C) :
    ∃ r, coefficient E n m mu cache = .ok r
      ∧ coefficientWithin E (n + m.natAbs) (m.natAbs + 1 + 1) n m mu cache = some (.ok r)
      ∧ (0 ≤ m →
          coefficientWithin E (n + m.natAbs) (m.natAbs + 1) n m mu cache = some (.ok r)) := by
  obtain ⟨r, e⟩ := coefficient_ok E n m mu cache
  refine ⟨r, e, by rw [coefficientWithin_nested, e], ?_⟩
  intro h0
  have h := coefficientWithin_eq E n m mu cache
  rw [if_neg (by omega)] at h
  rw [h, e]

/-- Claim C17 as stated fails: with the real square root, at `n = 2^31 + 1`, `m = 0` the
product `(2 n - 1) (2 n + 1)` exceeds `2^64` and wraps to `2^34 + 3`, so `b(n, m)^2` is
`(2^62 + 2^31) / (2^34 + 3)` and not `(n - m - 1)(n - m) / ((2 n - 1)(2 n + 1))`; and at
`n = 2^64 - 1`, `m = -1` the product `(n - m - 1)(n - m)` wraps to `0`, so `b(n, m)` is
`0`, not negative. -/
theorem b_square_counterexample :
    b (⟨Real.sqrt, Real.cos, Real.sin, fun x => Complex.exp (x * Complex.I),
          fun x => (x : ℂ), fun z => (starRingEnd ℂ) z⟩ : Numerics ℝ ℂ) 2147483649 0
        * b (⟨Real.sqrt, Real.cos, Real.sin, fun x => Complex.exp (x * Complex.I),
          fun x => (x : ℂ), fun z => (starRingEnd ℂ) z⟩ : Numerics ℝ ℂ) 2147483649 0
      ≠ (((2147483649 : ℝ) - 0 - 1) * ((2147483649 : ℝ) - 0)) /
          ((2 * (2147483649 : ℝ) - 1) * (2 * (2147483649 : ℝ) + 1))
    ∧ ¬ (b (⟨Real.sqrt, Real.cos, Real.sin, fun x => Complex.exp (x * Complex.I),
          fun x => (x : ℂ), fun z => (starRingEnd ℂ) z⟩ : Numerics ℝ ℂ)
        18446744073709551615 (-1) < 0) := by
  have hnum : u64 ((((2147483649 : Nat) : Int) - 0 - 1) * (((2147483649 : Nat) : Int) - 0))
      = 4611686020574871552 := by decide
  have hden : u64 ((2 * ((2147483649 : Nat) : Int) - 1) * (2 * ((2147483649 : Nat) : Int) + 1))
      = 17179869187 := by decide
  have hb : b (⟨Real.sqrt, Real.cos, Real.sin, fun x => Complex.exp (x * Complex.I),
        fun x => (x : ℂ), fun z => (starRingEnd ℂ) z⟩ : Numerics ℝ ℂ) 2147483649 0
      = Real.sqrt (4611686020574871552 / 17179869187) := by
    unfold b
    rw [if_neg (by decide), if_pos (by decide), one_mul, hnum, hden]
    norm_num
  have hz : u64 ((((18446744073709551615 : Nat) : Int) - (-1) - 1)
      * (((18446744073709551615 : Nat) : Int) - (-1))) = 0 := by decide
  have hb2 : b (⟨Real.sqrt, Real.cos, Real.sin, fun x => Complex.exp (x * Complex.I),
        fun x => (x : ℂ), fun z => (starRingEnd ℂ) z⟩ : Numerics ℝ ℂ)
        18446744073709551615 (-1) = 0 := by
    unfold b
    rw [if_neg (by decide), if_neg (by decide), hz]
    simp
  constructor
  · rw [hb, Real.mul_self_sqrt (by norm_num)]
    norm_num
  · rw [hb2]
    exact lt_irrefl 0

/-- Claim C17, amended: `b(n, m) = 0` whenever `|m| > n`; for `|m| ≤ n`, with the exact
square root, `b(n, m)` is non-negative when `m ≥ 0`, strictly negative when `m < 0` and
`n + |m| < 2^64`, and `b(n, m)^2 = (n - m - 1)(n - m) / ((2 n - 1)(2 n + 1))` for
`1 ≤ n ≤ 2^31`, the degrees for which the `t_uint` products do not wrap. -/
theorem b_sign_and_square {R C : Type} [LinearOrderedField R] (P : Numerics R C)
    (hP : P.SqrtExact) (n : Nat) (m : Int) :
    ((n : Int) < |m| → b P n m = 0)
    ∧ (|m| ≤ (n : Int) → 0 ≤ m → 0 ≤ b P n m)
    ∧ (|m| ≤ (n : Int) → m < 0 → n + m.natAbs < 2 ^ 64 → b P n m < 0)
    ∧ (|m| ≤ (n : Int) → 1 ≤ n → n ≤ 2 ^ 31 →
        b P n m * b P n m
          = (((n : R) - (m : R) - 1) * ((n : R) - (m : R))) /
              ((2 * (n : R) - 1) * (2 * (n : R) + 1))) :=
  ⟨b_out_of_range P n m, fun _ h0 => b_nonneg P hP n m h0,
    fun hm hneg hfit => b_neg P hP n m hm hneg hfit,
    fun hm hn1 hn => b_mul_self P hP n m hm hn1 hn⟩

/-- Witness for C17: the real square root at `n = 3`, `m = -2`. -/
theorem b_sign_and_square_witness :
    let P : Numerics ℝ ℂ :=
      ⟨Real.sqrt, Real.cos, Real.sin, fun x => Complex.exp (x * Complex.I),
        fun x => (x : ℂ), fun z => (starRingEnd ℂ) z⟩
    b P 3 (-2) < 0
      ∧ b P 3 (-2) * b P 3 (-2)
        = ((((3 : Nat) : ℝ) - ((-2 : Int) : ℝ) - 1) * (((3 : Nat) : ℝ) - ((-2 : Int) : ℝ))) /
            ((2 * ((3 : Nat) : ℝ) - 1) * (2 * ((3 : Nat) : ℝ) + 1)) := by
  intro P
  have h := b_sign_and_square P real_numerics_sqrtExact 3 (-2)
  exact ⟨h.2.2.1 (by decide) (by decide) (by decide),
    h.2.2.2 (by decide) (by decide) (by decide)⟩

/-- Claim C18 as stated fails: with the real square root, at `n = 2^31`, `m = 0` the
product `(2 n + 1) (2 n + 3)` is `2^64 + 2^34 + 3` and wraps to `2^34 + 3`, so `a(n, m)^2`
is `(2^31 + 1)^2 / (2^34 + 3)` and not `(n + 1 + |m|)(n + 1 - |m|) / ((2 n + 1)(2 n + 3))`. -/
theorem a_value_counterexample :
    a (⟨Real.sqrt, Real.cos, Real.sin, fun x => Complex.exp (x * Complex.I),
          fun x => (x : ℂ), fun z => (starRingEnd ℂ) z⟩ : Numerics ℝ ℂ) 2147483648 0
        * a (⟨Real.sqrt, Real.cos, Real.sin, fun x => Complex.exp (x * Complex.I),
          fun x => (x : ℂ), fun z => (starRingEnd ℂ) z⟩ : Numerics ℝ ℂ) 2147483648 0
      ≠ (((2147483648 : ℝ) + 1 + 0) * ((2147483648 : ℝ) + 1 - 0)) /
          ((2 * (2147483648 : ℝ) + 1) * (2 * (2147483648 : ℝ) + 3)) := by
  have hnum : u64 ((((2147483648 : Nat) : Int) + 1 + (((0 : Int).natAbs : Nat) : Int))
      * (((2147483648 : Nat) : Int) + 1 - (((0 : Int).natAbs : Nat) : Int)))
      = 4611686022722355201 := by decide
  have hden : u64 ((2 * ((2147483648 : Nat) : Int) + 1) * (2 * ((2147483648 : Nat) : Int) + 3))
      = 17179869187 := by decide
  have ha : a (⟨Real.sqrt, Real.cos, Real.sin, fun x => Complex.exp (x * Complex.I),
        fun x => (x : ℂ), fun z => (starRingEnd ℂ) z⟩ : Numerics ℝ ℂ) 2147483648 0
      = Real.sqrt (4611686022722355201 / 17179869187) := by
    unfold a
    simp only []
    rw [if_neg (by decide), hnum, hden]
    norm_num
  rw [ha, Real.mul_self_sqrt (by norm_num)]
  norm_num

/-- Claim C18, amended: `a(n, m) = a(n, -m)`, and `a(n, m) = 0` whenever `|m| > n`; for
`|m| ≤ n` and `n < 2^31`, the degrees for which the `t_uint` products do not wrap, with the
exact square root `a(n, m)` is the non-negative square root of
`(n + 1 + |m|)(n + 1 - |m|) / ((2 n + 1)(2 n + 3))` and is strictly positive. -/
theorem a_even_and_value {R C : Type} [LinearOrderedField R] (P : Numerics R C)
    (hP : P.SqrtExact) (n : Nat) (m : Int) :
    a P n m = a P n (-m)
    ∧ ((n : Int) < |m| → a P n m = 0)
    ∧ (|m| ≤ (n : Int) → n < 2 ^ 31 →
        a P n m
          = P.sqrt ((((n : R) + 1 + ((|m| : Int) : R)) * ((n : R) + 1 - ((|m| : Int) : R))) /
              ((2 * (n : R) + 1) * (2 * (n : R) + 3)))
        ∧ 0 ≤ a P n m
        ∧ a P n m * a P n m
          = (((n : R) + 1 + ((|m| : Int) : R)) * ((n : R) + 1 - ((|m| : Int) : R))) /
              ((2 * (n : R) + 1) * (2 * (n : R) + 3))
        ∧ 0 < a P n m) := by
  refine ⟨a_neg_order P n m, a_out_of_range P n m, ?_⟩
  intro hm hn
  obtain ⟨e, hpos⟩ := a_eq_sqrt P n m hm hn
  refine ⟨e, ?_, ?_, ?_⟩
  · rw [e]; exact hP.sqrt_nonneg _
  · rw [e]; exact hP.mul_self_sqrt _ (le_of_lt hpos)
  · rw [e]; exact sqrt_pos_of_exact P hP _ hpos

/-- Witness for C18: the real square root at `n = 3`, `m = -2`. -/
theorem a_even_and_value_witness :
    let P : Numerics ℝ ℂ :=
      ⟨Real.sqrt, Real.cos, Real.sin, fun x => Complex.exp (x * Complex.I),
        fun x => (x : ℂ), fun z => (starRingEnd ℂ) z⟩
    a P 3 (-2) = a P 3 (-(-2)) ∧ 0 < a P 3 (-2) := by
  intro P
  have h := a_even_and_value P real_numerics_sqrtExact 3 (-2)
  exact ⟨h.1, (h.2.2 (by decide) (by decide)).2.2.2⟩

end RotationCoefficients

namespace RotationCoefficients

variable {R C : Type} [Field R] [Field C]

/-- Claim C19: in a cache the engine can hold, every stored key `(n, m, mu)` has
`0 ≤ m ≤ n` and `|mu| ≤ n`; so after a request with `m < 0`, `|m| > n` or `|mu| > n` the
cache holds nothing under the key of that request. -/
theorem stored_keys_in_range (E : RotationCoefficients R C) (c : Cache C)
    (hc : Reachable E c) :
    (∀ (n : Nat) (m mu : Int) (v : C), c (n, m, mu) = some v →
      0 ≤ m ∧ m ≤ (n : Int) ∧ |mu| ≤ (n : Int))
    ∧ (∀ (n : Nat) (m mu : Int) (v : C) (c' : Cache C),
      (m < 0 ∨ (n : Int) < |m| ∨ (n : Int) < |mu|) →
        coefficient E n m mu c = .ok (v, c') → c' (n, m, mu) = none) := by
  constructor
  · intro n m mu v h
    obtain ⟨h0, h1, h2, _⟩ := reachable_cacheOK E c hc n m mu v h
    rw [Int.abs_eq_natAbs]
    omega
  · intro n m mu v c' hbad hcall
    have hc' : Reachable E c' := Reachable.call c c' n m mu v hc hcall
    cases hk : c' (n, m, mu) with
    | none => rfl
    | some w =>
      exfalso
      obtain ⟨h0, h1, h2, _⟩ := reachable_cacheOK E c' hc' n m mu w hk
      rw [Int.abs_eq_natAbs, Int.abs_eq_natAbs] at hbad
      omega

end RotationCoefficients

namespace RotationCoefficients

/-- Witness for C19: real and complex numerics, on the cache left by the request
`(1, 0, 0)`. -/
theorem stored_keys_in_range_witness :
    let E : RotationCoefficients ℝ ℂ :=
      ⟨⟨Real.sqrt, Real.cos, Real.sin, fun x => Complex.exp (x * Complex.I),
        fun x => (x : ℂ), fun z => (starRingEnd ℂ) z⟩, 1, 2, 3,
      fun _ mu => if mu = 0 then 1 else 0⟩
    let c : Cache ℂ := Cache.insert Cache.empty (1, 0, 0) (E.initial 1 0)
    Reachable E c
      ∧ c (1, 0, 0) = some 1
      ∧ ((0 : Int) ≤ 0 ∧ (0 : Int) ≤ ((1 : Nat) : Int) ∧ |(0 : Int)| ≤ ((1 : Nat) : Int)) := by
  intro E c
  have hc : Reachable E c :=
    Reachable.call Cache.empty c 1 0 0 (E.initial 1 0) Reachable.empty
      (coefficient_order_zero_empty E 1 0 (by decide))
  have hstored : c (1, 0, 0) = some 1 := by
    simp [c, E, Cache.insert]
  exact ⟨hc, hstored, (stored_keys_in_range E c hc).1 1 0 0 1 hstored⟩

/-- Claim C20 as stated fails at the largest degree: for `n = 2^64 - 1` and `m = 1` the
degree `n + 1` wraps to `0` and the divisor `b(0, 0)` is `0`; evaluated without the wrap,
`b(2^64, 0)` is `0` as well, because `(n - m - 1)(n - m)` wraps to `0`. -/
theorem divisor_zero_counterexample :
    b (⟨Real.sqrt, Real.cos, Real.sin, fun x => Complex.exp (x * Complex.I),
          fun x => (x : ℂ), fun z => (starRingEnd ℂ) z⟩ : Numerics ℝ ℂ)
        ((18446744073709551615 + 1) % 2 ^ 64) (1 - 1) = 0
    ∧ b (⟨Real.sqrt, Real.cos, Real.sin, fun x => Complex.exp (x * Complex.I),
          fun x => (x : ℂ), fun z => (starRingEnd ℂ) z⟩ : Numerics ℝ ℂ)
        (18446744073709551615 + 1) (1 - 1) = 0 := by
  have h1 : u64 ((((((18446744073709551615 + 1) % 2 ^ 64 : Nat)) : Int) - (1 - 1) - 1)
      * ((((18446744073709551615 + 1) % 2 ^ 64 : Nat) : Int) - (1 - 1))) = 0 := by decide
  have h2 : u64 (((((18446744073709551615 + 1 : Nat)) : Int) - (1 - 1) - 1)
      * ((((18446744073709551615 + 1 : Nat)) : Int) - (1 - 1))) = 0 := by decide
  constructor
  · unfold b
    rw [if_neg (by decide), if_pos (by decide), h1]
    simp
  · unfold b
    rw [if_neg (by decide), if_pos (by decide), h2]
    simp

/-- Claim C20, amended: for `1 ≤ m ≤ n` with `n + 1 < 2^64`, so that the degree `n + 1`
fits `t_uint`, the divisor `b(n + 1, m - 1)` of `factors` is strictly positive when the
square root of a positive number is positive; and on any cache `operator()(n, m, mu)`
returns, so the assertion `n >= 1` of `recursion` never fails. -/
theorem factors_divisor_pos {R C : Type} [LinearOrderedField R] [Field C]
    (E : RotationCoefficients R C) (hs : ∀ x : R, 0 < x → 0 < E.num.sqrt x) (n m : Nat)
    (hm1 : 1 ≤ m) (hmn : m ≤ n) (hfit : n + 1 < 2 ^ 64) :
    0 < b E.num (n + 1) ((m : Int) - 1)
    ∧ ∀ (mu : Int) (cache : Cache C), ∃ r, coefficient E n (m : Int) mu cache = .ok r :=
  ⟨b_divisor_pos E.num hs n m hm1 hmn (by omega),
    fun mu cache => coefficient_ok E n (m : Int) mu cache⟩

/-- Witness for C20: real and complex numerics at `n = 3`, `m = 2`. -/
theorem factors_divisor_pos_witness :
    let E : RotationCoefficients ℝ ℂ :=
      ⟨⟨Real.sqrt, Real.cos, Real.sin, fun x => Complex.exp (x * Complex.I),
        fun x => (x : ℂ), fun z => (starRingEnd ℂ) z⟩, 1, 2, 3,
      fun _ mu => if mu = 0 then 1 else 0⟩
    0 < b E.num (3 + 1) (((2 : Nat) : Int) - 1)
      ∧ ∀ (mu : Int) (cache : Cache ℂ),
        ∃ r, coefficient E 3 ((2 : Nat) : Int) mu cache = .ok r := by
  intro E
  exact factors_divisor_pos E (fun _ h => Real.sqrt_pos.2 h) 3 2 (by decide) (by decide)
    (by decide)

end RotationCoefficients

/-! ## The number of coefficients read by the baked operator -/

namespace CachedCoAxialRecurrence

variable {K : Type}

end CachedCoAxialRecurrence

namespace CachedCoAxialRecurrence

end CachedCoAxialRecurrence

/-! ## The output container of the in-place apply -/

namespace CachedCoAxialRecurrence

variable {K : Type}

end CachedCoAxialRecurrence

/-! ## The conjugate symmetry of the rotation coefficients -/

namespace RotationCoefficients

end RotationCoefficients

end Optimet
